import Mathlib

/-!
Shallow embedding of the `wso` orchestrator control plane
(`src/manager/{plan,config,manager,repository,vmm}.py`, `src/manager/main.py`).

Modelling conventions:
* IPv4 addresses and UUID tokens are `Nat`; instants (`datetime`) are `Int`
  and durations (`timedelta`) are `Int`.
* Python `set[str]` is `Finset String`; Python lists are `List`.
* Randomness (`random.shuffle`, `random.choice`, `uuid4`) is supplied by an
  oracle environment `Env`; theorems constrain the oracle exactly as the
  Python library guarantees (a shuffle is a permutation, a choice is a
  member of a non-empty list).
* Python exceptions (`min` of an empty sequence, `random.choice` of an empty
  sequence, exhausted IP pool, Mongo duplicate-key error) are `Option`
  failure (`none`).
-/

namespace Wso

/-- `ConnectionStatus` from `src/manager/manager.py`. -/
structure ConnectionStatus where
  planned_at : Int
  created_at : Option Int := none
  last_beat_at : Option Int := none
  dead_since : Option Int := none
deriving DecidableEq, Repr

/-- `ConnectionStatus.is_dead`: `dead_since is not None`. -/
def ConnectionStatus.is_dead (s : ConnectionStatus) : Bool :=
  s.dead_since.isSome

/-- `ManagerState` from `src/manager/plan.py`. -/
structure ManagerState where
  name : String
  is_primary : Bool := false
  is_dead_for : Finset String := ∅
  is_active : Bool := true
deriving DecidableEq

/-- `ManagerState.is_dead(quorum)`: `len(is_dead_for) >= quorum`. -/
def ManagerState.is_dead (s : ManagerState) (q : Nat) : Bool :=
  q ≤ s.is_dead_for.card

/-- `Worker` from `src/manager/plan.py` (fields of `VmBase`, `type="wrk"`). -/
structure Worker where
  service : String
  manager : String
  address : Nat
  port : Nat
  token : Nat
deriving DecidableEq

/-- `LoadBalancer` from `src/manager/plan.py` (`type="lb"`, plus `upstream`). -/
structure LoadBalancer where
  service : String
  manager : String
  address : Nat
  port : Nat
  token : Nat
  upstream : List (Nat × Nat)
deriving DecidableEq

/-- The tagged union `Vm = Worker | LoadBalancer` (discriminated by `type`). -/
inductive Vm
  | worker (w : Worker)
  | lb (l : LoadBalancer)
deriving DecidableEq

def Vm.service : Vm → String
  | .worker w => w.service
  | .lb l => l.service

def Vm.manager : Vm → String
  | .worker w => w.manager
  | .lb l => l.manager

def Vm.address : Vm → Nat
  | .worker w => w.address
  | .lb l => l.address

def Vm.port : Vm → Nat
  | .worker w => w.port
  | .lb l => l.port

def Vm.token : Vm → Nat
  | .worker w => w.token
  | .lb l => l.token

/-- `Plan` from `src/manager/plan.py`. -/
structure Plan where
  version : Nat := 0
  vms : List Vm := []
  manager_states : List ManagerState := []
deriving DecidableEq

/-- `Plan.state_for(name)`: the unique state of that name, else `None`. -/
def Plan.state_for (p : Plan) (name : String) : Option ManagerState :=
  match p.manager_states.filter (fun s => s.name == name) with
  | [s] => some s
  | _ => none

/-- `Plan.workers_for_service(service_name)`: the `Worker` entries of that
service, in plan order. -/
def Plan.workers_for_service (p : Plan) (service_name : String) : List Worker :=
  p.vms.filterMap fun vm =>
    match vm with
    | .worker w => if w.service == service_name then some w else none
    | .lb _ => none

/-- `Plan.lb_for_service(service_name)`: the unique LB entry of that service,
else `None`. -/
def Plan.lb_for_service (p : Plan) (service_name : String) : Option LoadBalancer :=
  match p.vms.filterMap (fun vm =>
    match vm with
    | .lb l => if l.service == service_name then some l else none
    | .worker _ => none) with
  | [l] => some l
  | _ => none

/-- `IPv4Range` from `src/manager/config.py`, an inclusive range `start-stop`
of IPv4 addresses read as 32-bit numbers. -/
structure IPv4Range where
  start : Nat
  stop : Nat
deriving DecidableEq

/-- `IPv4Range.range()`: the addresses from `start` to `stop` inclusive, in
ascending order. -/
def IPv4Range.rangeList (r : IPv4Range) : List Nat :=
  (List.range (r.stop + 1 - r.start)).map (fun i => r.start + i)

/-- `IPv4Range.generate_one_not_in(ips)`: scan the range in ascending order
and return the first address not in `ips`; `none` models the
`"all ips taken"` exception. -/
def IPv4Range.generate_one_not_in (r : IPv4Range) (ips : List Nat) : Option Nat :=
  r.rangeList.find? (fun ip => !(ips.contains ip))

/-- `ManagerConfig` from `src/manager/config.py`. -/
structure ManagerConfig where
  name : String
  address : Nat
  address_pool : IPv4Range
  port : Nat := 8000
  token : Nat
  imgs_path : String := ""
deriving DecidableEq

/-- `ServiceConfig` from `src/manager/config.py` (`replicas` is a Python
`int`, hence `Int`). -/
structure ServiceConfig where
  name : String
  image : String
  port : Nat
  replicas : Int
deriving DecidableEq

/-- `LBConfig` from `src/manager/config.py`. -/
structure LBConfig where
  service : String
  address : Nat
  port : Nat
deriving DecidableEq

/-- `GeneralSettings` from `src/manager/config.py`. -/
structure GeneralSettings where
  max_inactive : Int
deriving DecidableEq

/-- `Config` from `src/manager/config.py`. -/
structure Config where
  general : GeneralSettings
  managers : List ManagerConfig := []
  services : List ServiceConfig := []
  load_balancers : List LBConfig := []
deriving DecidableEq

/-- The `lb_map` lookup of `Config.service_lb_pairs`: a dict comprehension in
which a later entry for the same service overrides an earlier one. -/
def lbFor (lbs : List LBConfig) (name : String) : Option LBConfig :=
  (lbs.filter (fun lb => lb.service == name)).getLast?

/-- Oracle environment for `Manager`: `self_name` (settings), the current
`Config`, `self._plan` (returned when `_remake_plan` reports no change), the
local status table accessor `self.status`, and the sources of randomness:
`perm` is the index order produced by `random.shuffle`, `pickMgr`/`pickVm`
are `random.choice` (returning `none` on an empty sequence, which Python
raises on), and `freshTok k` is the `k`-th `uuid4()` drawn during one
`_remake_plan` run. -/
structure Env where
  self_name : String
  config : Config
  self_plan : Plan
  statuses : Nat → Option ConnectionStatus
  perm : List Nat
  pickMgr : List ManagerConfig → Option ManagerConfig
  pickVm : List Worker → Option Worker
  freshTok : Nat → Nat

/-- `status is not None and status.is_dead` for a token, via `self.status`. -/
def statusIsDead (env : Env) (tok : Nat) : Bool :=
  match env.statuses tok with
  | some st => st.is_dead
  | none => false

/-- Names of managers in `Config` with no state in the current plan
(`_remake_manager_states`, first pass). -/
def newManagerNames (env : Env) (plan : Plan) : List String :=
  (env.config.managers.filter (fun m => (plan.state_for m.name).isNone)).map
    (fun m => m.name)

/-- `new_manager_states` before the dead-for update: copies of the plan
states followed by fresh states for the new names. -/
def statesPhaseA (env : Env) (plan : Plan) : List ManagerState :=
  plan.manager_states ++ (newManagerNames env plan).map (fun n => { name := n })

/-- The `zip(config.managers, new_manager_states)` loop updating
`is_dead_for` with respect to `self`; returns the updated list and whether
anything changed. -/
def updDeadFor (env : Env) : List ManagerConfig → List ManagerState →
    List ManagerState × Bool
  | _, [] => ([], false)
  | [], sts => (sts, false)
  | m :: ms, s :: ss =>
    let dead := statusIsDead env m.token
    let upd : ManagerState × Bool :=
      if dead then
        if env.self_name ∈ s.is_dead_for then (s, false)
        else ({ s with is_dead_for := insert env.self_name s.is_dead_for }, true)
      else
        if env.self_name ∈ s.is_dead_for then
          ({ s with is_dead_for := s.is_dead_for.erase env.self_name }, true)
        else (s, false)
    let rest := updDeadFor env ms ss
    (upd.1 :: rest.1, upd.2 || rest.2)

/-- The `match [state for state in new_manager_states if state.is_primary]`:
the index of the primary if exactly one state is primary, else `none`. -/
def primaryIdx (sts : List ManagerState) : Option Nat :=
  match (sts.enum.filter (fun p => p.2.is_primary)).map (fun p => p.1) with
  | [i] => some i
  | _ => none

/-- The key minimized by `min(to_shuffle, key=...)`:
`(len(state.is_dead_for), state.name != self_name)`. -/
def ldKey (self : String) (s : ManagerState) : Nat × Bool :=
  (s.is_dead_for.card, s.name ≠ self)

/-- Strict lexicographic order on the least-dead key (`False < True`). -/
def keyLt (a b : Nat × Bool) : Bool :=
  a.1 < b.1 || (a.1 == b.1 && (!a.2 && b.2))

/-- `min(to_shuffle, key=...)` over the shuffled states: the index (into
`sts`) of the first key-minimal state in the order given by `env.perm`;
`none` models the `ValueError` that `min` raises on an empty sequence. -/
def leastDeadIdx (env : Env) (sts : List ManagerState) : Option Nat :=
  match env.perm.filterMap (fun i => (sts.get? i).map (fun s => (i, s))) with
  | [] => none
  | c :: cs =>
    some (cs.foldl (fun best x =>
      if keyLt (ldKey env.self_name x.2) (ldKey env.self_name best.2) then x
      else best) c).1

/-- `quorum = int(ceil(len(config.managers) / 2))`. -/
def quorum (env : Env) : Nat :=
  (env.config.managers.length + 1) / 2

/-- Set the `is_primary` flag of the state at index `i`. -/
def setPrimary (sts : List ManagerState) (i : Nat) (b : Bool) : List ManagerState :=
  match sts.get? i with
  | some s => sts.set i { s with is_primary := b }
  | none => sts

/-- The primary-election step of `_remake_manager_states` (lines 242-264):
no current primary promotes the least-dead candidate; a quorum-dead primary
with a non-quorum-dead least-dead candidate transfers primacy; otherwise the
current primary is kept.  Returns the updated states, the primary index and
the changed flag. -/
def choosePrimary (env : Env) (sts : List ManagerState) :
    Option (List ManagerState × Nat × Bool) :=
  match leastDeadIdx env sts with
  | none => none
  | some j =>
    match primaryIdx sts with
    | none => some (setPrimary sts j true, j, true)
    | some i =>
      match sts.get? i, sts.get? j with
      | some si, some sj =>
        if si.is_dead (quorum env) = true ∧ sj.is_dead (quorum env) = false then
          some (setPrimary (setPrimary sts i false) j true, j, true)
        else
          some (sts, i, false)
      | _, _ => none

/-- The `new_states_dict` lookup: the dict comprehension keeps the last
state of a given name, so look up the last index whose name matches. -/
def lastIdxOf (n : String) (sts : List ManagerState) : Option Nat :=
  ((sts.enum.filter (fun p => p.2.name == n)).map (fun p => p.1)).getLast?

/-- Add a name to a list maintained with set semantics. -/
def addName (n : String) (l : List String) : List String :=
  if n ∈ l then l else l ++ [n]

/-- The BFS loop of `_remake_manager_states` (lines 267-280): pop a name
from `to_visit`, mark it visited and active, and enqueue every state that is
not dead-for the popped name and not yet visited.  `to_visit.pop()` removes
an arbitrary element of a Python set; the embedding pops the head of the
worklist.  Fuel bounds the iteration count; `none` on exhaustion or on a
failed dict lookup (neither occurs on the states the code builds). -/
def bfs : Nat → List ManagerState → List String → List String → Bool →
    Option (List ManagerState × List String × Bool)
  | 0, sts, visited, toVisit, changed =>
    match toVisit with
    | [] => some (sts, visited, changed)
    | _ :: _ => none
  | fuel + 1, sts, visited, toVisit, changed =>
    match toVisit with
    | [] => some (sts, visited, changed)
    | n :: rest =>
      match lastIdxOf n sts with
      | none => none
      | some i =>
        match sts.get? i with
        | none => none
        | some s =>
          let visited2 := addName s.name visited
          let step : List ManagerState × Bool :=
            if s.is_active then (sts, changed)
            else (sts.set i { s with is_active := true }, true)
          let adds := (step.1.filter (fun o =>
            !(s.name ∈ o.is_dead_for) && !(o.name ∈ visited2))).map (fun o => o.name)
          let toVisit2 := adds.foldl (fun acc m => addName m acc) rest
          bfs fuel step.1 visited2 toVisit2 step.2

/-- The final pass of `_remake_manager_states` (lines 282-287): every state
whose name was not visited loses `is_active`. -/
def deactivate (visited : List String) : List ManagerState →
    List ManagerState × Bool
  | [] => ([], false)
  | s :: ss =>
    let rest := deactivate visited ss
    if s.name ∈ visited then (s :: rest.1, rest.2)
    else if s.is_active then ({ s with is_active := false } :: rest.1, true)
    else (s :: rest.1, rest.2)

/-- `_remake_manager_states` up to the primary election: membership pass,
dead-for pass and primary choice. -/
def remakeStatesMid (env : Env) (plan : Plan) :
    Option (List ManagerState × Nat × Bool) :=
  let sts0 := statesPhaseA env plan
  let cA : Bool := !(newManagerNames env plan).isEmpty
  let stsB := updDeadFor env env.config.managers sts0
  match choosePrimary env stsB.1 with
  | none => none
  | some (sts2, pidx, cE) => some (sts2, pidx, cA || stsB.2 || cE)

/-- `Manager._remake_manager_states` (lines 214-289). -/
def remake_manager_states (env : Env) (plan : Plan) :
    Option (List ManagerState × Bool) :=
  match remakeStatesMid env plan with
  | none => none
  | some (sts2, pidx, c0) =>
    match sts2.get? pidx with
    | none => none
    | some prim =>
      match bfs (sts2.length + 1) sts2 [] [prim.name] c0 with
      | none => none
      | some (sts3, visited, c1) =>
        let d := deactivate visited sts3
        some (d.1, c1 || d.2)

/-- The `for _ in range(delta)` loop of `_remake_service_workers`: `cnt`
times, pick a random active manager, allocate the first free address of its
pool outside `workers + new_vms + current_plan.vms`, and append a fresh
worker.  `k` counts the `uuid4()` draws. -/
def allocWorkers (env : Env) (service : ServiceConfig) (plan : Plan)
    (new_vms : List Vm) (active : List ManagerConfig) :
    Nat → List Worker → Nat → Option (List Worker × Nat)
  | 0, ws, k => some (ws, k)
  | cnt + 1, ws, k =>
    match env.pickMgr active with
    | none => none
    | some mgr =>
      let taken := ws.map (fun w => w.address) ++ new_vms.map Vm.address ++
        plan.vms.map Vm.address
      match mgr.address_pool.generate_one_not_in taken with
      | none => none
      | some ip =>
        allocWorkers env service plan new_vms active cnt
          (ws ++ [{ service := service.name, manager := mgr.name, address := ip,
                    port := service.port, token := env.freshTok k }]) (k + 1)

/-- The `for _ in range(-delta)` loop of `_remake_service_workers`: `cnt`
times remove a randomly chosen worker (`list.remove` drops the first equal
element). -/
def removeWorkers (env : Env) : Nat → List Worker → Option (List Worker)
  | 0, ws => some ws
  | cnt + 1, ws =>
    match env.pickVm ws with
    | none => none
    | some w => removeWorkers env cnt (ws.erase w)

/-- `Manager._remake_service_workers` (lines 291-324): keep this service's
workers on active managers, then add or remove workers to reach
`service.replicas`. -/
def remake_service_workers (env : Env) (service : ServiceConfig) (plan : Plan)
    (new_vms : List Vm) (active : List ManagerConfig) (k : Nat) :
    Option (List Worker × Bool × Nat) :=
  let active_names := active.map (fun m => m.name)
  let ws := (plan.workers_for_service service.name).filter
    (fun w => active_names.contains w.manager)
  let delta : Int := service.replicas - ws.length
  match allocWorkers env service plan new_vms active delta.toNat ws k with
  | none => none
  | some (ws1, k1) =>
    match removeWorkers env (-delta).toNat ws1 with
    | none => none
    | some ws2 => some (ws2, decide (delta ≠ 0), k1)

/-- `Manager._remake_service_lb` (lines 334-384): drop the LB when no LB is
configured; create one on a random active manager when none is planned;
otherwise recompute the desired fields and produce a modified copy when any
differ (address/manager changes also mint a fresh token). -/
def remake_service_lb (env : Env) (service : ServiceConfig)
    (lb_config : Option LBConfig) (plan : Plan) (workers : List Worker)
    (active : List ManagerConfig) (k : Nat) :
    Option (List LoadBalancer × Bool × Nat) :=
  let lb_vm := plan.lb_for_service service.name
  let ups := workers.map (fun w => (w.address, w.port))
  match lb_config with
  | none => some ([], lb_vm.isSome, k)
  | some cfg =>
    match lb_vm with
    | none =>
      match env.pickMgr active with
      | none => none
      | some mgr =>
        some ([{ service := cfg.service, manager := mgr.name,
                 address := cfg.address, port := cfg.port,
                 token := env.freshTok k, upstream := ups }], true, k + 1)
    | some lbv =>
      let active_names := active.map (fun m => m.name)
      let mgrName : Option String :=
        if active_names.contains lbv.manager then some lbv.manager
        else (env.pickMgr active).map (fun m => m.name)
      match mgrName with
      | none => none
      | some mgr =>
        let dUp := ups ≠ lbv.upstream
        let dPort := cfg.port ≠ lbv.port
        let dAddr := cfg.address ≠ lbv.address
        let dMgr := mgr ≠ lbv.manager
        if dUp ∨ dPort ∨ dAddr ∨ dMgr then
          let tok := if dAddr ∨ dMgr then env.freshTok k else lbv.token
          let k2 := if dAddr ∨ dMgr then k + 1 else k
          some ([{ lbv with
                    upstream := ups,
                    port := cfg.port,
                    address := cfg.address,
                    manager := mgr,
                    token := tok }],
                true, k2)
        else
          some ([lbv], false, k)

/-- The `for service, lb_config in self._config.service_lb_pairs()` loop of
`_remake_plan`, accumulating `new_vms` and the changed flag. -/
def remake_services (env : Env) (plan : Plan) (active : List ManagerConfig) :
    List ServiceConfig → List Vm → Bool → Nat → Option (List Vm × Bool)
  | [], new_vms, changed, _ => some (new_vms, changed)
  | service :: rest, new_vms, changed, k =>
    match remake_service_workers env service plan new_vms active k with
    | none => none
    | some (ws, cW, k1) =>
      match remake_service_lb env service
          (lbFor env.config.load_balancers service.name) plan ws active k1 with
      | none => none
      | some (lbs, cL, k2) =>
        remake_services env plan active rest
          (new_vms ++ ws.map Vm.worker ++ lbs.map Vm.lb) (changed || cW || cL) k2

/-- `Manager._remake_plan` (lines 178-212) without the final version/commit
step: the rebuilt vm list, manager states and changed flag. -/
def remake_plan_core (env : Env) (plan : Plan) :
    Option (List Vm × List ManagerState × Bool) :=
  match remake_manager_states env plan with
  | none => none
  | some (sts, cM) =>
    let active := (env.config.managers.zip sts).filterMap
      (fun p => if p.2.is_active then some p.1 else none)
    match remake_services env plan active env.config.services [] cM 0 with
    | none => none
    | some (vms, changed) => some (vms, sts, changed)

/-- `Manager._remake_plan`: on any change, a plan with `version + 1`, the
new vms and manager states; otherwise `self._plan` (which equals the input
plan at every call site the claims concern). -/
def remake_plan (env : Env) (plan : Plan) : Option Plan :=
  match remake_plan_core env plan with
  | none => none
  | some (vms, sts, changed) =>
    some (if changed then
            { version := plan.version + 1, vms := vms, manager_states := sts }
          else env.self_plan)

/-- `Repository.save_plan` (src/manager/repository.py lines 60-66) against
the singleton `plans` collection: `replace_one({_id: "global",
version: plan.version - 1}, plan, upsert=True)`.  The store is the single
`_id="global"` slot.  A matched document is replaced (`modified_count = 1`,
return `true`); with no stored document the upsert inserts the plan but
reports `modified_count = 0` (return `false`); with a stored document of a
different version the filter matches nothing and the upsert's insert hits
the duplicate `_id` (Mongo `DuplicateKeyError`, modelled as `none`, nothing
written).  The comparison is over integers, so a stored version never
matches `plan.version - 1` when `plan.version = 0`. -/
def save_plan (store : Option Plan) (plan : Plan) : Option (Option Plan × Bool) :=
  match store with
  | some st =>
    if (st.version : Int) = (plan.version : Int) - 1 then some (some plan, true)
    else none
  | none => some (some plan, false)

/-- `Manager.hearbeat` (sic, lines 43-48): set `last_beat_at` of a tracked
token to the current instant and return `true`; an unknown token returns
`false` and changes nothing.  The status dict is an association list. -/
def hearbeat (tbl : List (Nat × ConnectionStatus)) (token : Nat) (now : Int) :
    List (Nat × ConnectionStatus) × Bool :=
  match tbl.lookup token with
  | none => (tbl, false)
  | some _ =>
    (tbl.map (fun p =>
      if p.1 = token then (p.1, { p.2 with last_beat_at := some now }) else p),
     true)

/-- The per-status body of `Manager._update_statuses` (lines 67-80): when a
beat has been seen, a lapse of more than `max_inactive` sets `dead_since`
to `last_beat_at + max_inactive`, and a fresh-enough beat clears a set
`dead_since`.  Both `datetime.now()` reads are modelled as the single
instant `now`. -/
def update_status (max_inactive : Int) (now : Int) (st : ConnectionStatus) :
    ConnectionStatus × Bool :=
  match st.last_beat_at with
  | none => (st, false)
  | some t =>
    let ds := t + max_inactive
    if ds < now ∧ st.is_dead = false then
      ({ st with dead_since := some ds }, true)
    else if now ≤ ds ∧ st.is_dead = true then
      ({ st with dead_since := none }, true)
    else (st, false)

/-- `Manager._update_statuses`: update every tracked status, returning the
new table and the changed entries. -/
def update_statuses (max_inactive : Int) (now : Int) :
    List (Nat × ConnectionStatus) →
    List (Nat × ConnectionStatus) × List (Nat × ConnectionStatus)
  | [] => ([], [])
  | p :: ps =>
    let u := update_status max_inactive now p.2
    let rest := update_statuses max_inactive now ps
    ((p.1, u.1) :: rest.1, if u.2 then (p.1, u.1) :: rest.2 else rest.2)

/-- Outcome of handling one received frame on the heartbeat WebSocket. -/
inductive WsAction
  | closeWith (code : Nat) (reason : String)
  | continueLoop
deriving DecidableEq

/-- Does an action close the socket with policy-violation code 1008? -/
def isClose1008 : WsAction → Bool
  | .closeWith 1008 _ => true
  | .closeWith _ _ => false
  | .continueLoop => false

/-- One iteration of `websocket_endpoint` (src/manager/main.py lines 88-93)
after a frame is received: the endpoint calls `manager.hearbeat(token)`,
discards its result, and loops; it never closes the socket itself. -/
def websocket_frame_step (tbl : List (Nat × ConnectionStatus)) (token : Nat)
    (now : Int) : List (Nat × ConnectionStatus) × WsAction :=
  ((hearbeat tbl token now).1, WsAction.continueLoop)

/-- `VmBase.name` (src/manager/plan.py lines 62-66):
`wso-<manager>-<type>-<service>-<token>`. -/
def vmBaseName (manager ty service token : String) : String :=
  "wso-" ++ manager ++ "-" ++ ty ++ "-" ++ service ++ "-" ++ token

/-- Lower-case hexadecimal digit (`[0-9a-f]`). -/
def isHexLower (c : Char) : Bool :=
  c.isDigit || (Char.ofNat 97 ≤ c && c ≤ Char.ofNat 102)

/-- Shape `[0-9a-f]{8}-[0-9a-f]{4}-[0-9a-f]{4}-[0-9a-f]{4}-[0-9a-f]{12}`. -/
def isUuidShape (cs : List Char) : Bool :=
  cs.length == 36 && cs.enum.all (fun p =>
    if p.1 == 8 || p.1 == 13 || p.1 == 18 || p.1 == 23 then
      p.2 == Char.ofNat 45
    else isHexLower p.2)

/-- Split a character list at its last dash: `some (before, after)` when a
dash exists (the greedy `(.*)-(.*)` split), else `none`. -/
def splitLastDash : List Char → Option (List Char × List Char)
  | [] => none
  | c :: rest =>
    match splitLastDash rest with
    | some (g1, g2) => some (c :: g1, g2)
    | none => if c == Char.ofNat 45 then some ([], rest) else none

/-- `VMManager.VM_NAME_REGEX` (src/manager/vmm.py lines 34-37) as a parser:
`^wso-(.*)-(.*)-(<uuid shape>)$` with greedy groups.  The 36-character
uuid window is forced at the end; the first group takes everything up to
the last dash of the middle segment.  Returns the three capture groups. -/
def parseVmName (name : String) : Option (String × String × String) :=
  let cs := name.toList
  if cs.take 4 = ("wso-".toList) then
    let rest := cs.drop 4
    if 37 ≤ rest.length then
      let uuid := rest.drop (rest.length - 36)
      let mid := rest.take (rest.length - 37)
      if isUuidShape uuid && (rest.get? (rest.length - 37) == some (Char.ofNat 45)) then
        match splitLastDash mid with
        | some (g1, g2) => some (⟨g1⟩, ⟨g2⟩, ⟨uuid⟩)
        | none => none
      else none
    else none
  else none

/-- `VMConfig` as constructed by `VMManager.list_current_vms`
(src/manager/vms.py plus the literal `127.0.0.1`/`0` fields). -/
structure VMConfig where
  service : String
  manager : String
  address : Nat
  port : Nat
  token : String
deriving DecidableEq

/-- `VMManager.list_current_vms` (src/manager/vmm.py lines 39-53): match
every domain name against the regex, bind the groups as
`service, manager, token = match.groups()`, keep those whose `manager`
group equals the local manager's name. -/
def list_current_vms (selfName : String) (domains : List String) : List VMConfig :=
  domains.filterMap fun d =>
    match parseVmName d with
    | none => none
    | some (service, mgr, token) =>
      if mgr = selfName then
        some { service := service, manager := mgr, address := 2130706433,
               port := 0, token := token }
      else none

/-- The uuid used in the C10 failing input. -/
def c10uuid : String := "0123abcd-0123-abcd-0123-0123456789ab"


/-- Config for the C4 witness: three managers, so `quorum = 2`. -/
def c4cfg : Config :=
  { general := { max_inactive := 10 },
    managers := [
      { name := "m1", address := 1,
        address_pool := { start := 10, stop := 20 }, token := 1 },
      { name := "m2", address := 2,
        address_pool := { start := 30, stop := 40 }, token := 2 },
      { name := "m3", address := 3,
        address_pool := { start := 50, stop := 60 }, token := 3 }],
    services := [], load_balancers := [] }


/-- Oracle environment for the C4 witness (reconciling manager is `m2`). -/
def c4env : Env :=
  { self_name := "m2", config := c4cfg, self_plan := {},
    statuses := fun _ => none, perm := [0, 1],
    pickMgr := List.head?, pickVm := List.head?, freshTok := fun n => n }


/-- States for the C4 witness: current primary `m1` is dead for the quorum
`{m2, m3}`; `m2` is least-dead. -/
def c4sts : List ManagerState :=
  [{ name := "m1", is_primary := true, is_dead_for := {"m2", "m3"},
     is_active := true },
   { name := "m2", is_primary := false, is_dead_for := ∅, is_active := true }]


/-- The single manager of the C1 scenario: pool `10.0.0.2-10.0.0.10`
(addresses 167772162-167772170 as 32-bit numbers). -/
def c1m : ManagerConfig :=
  { name := "m1", address := 0,
    address_pool := { start := 167772162, stop := 167772170 }, token := 77 }


/-- The C1 scenario Config: one manager `m1`, one service `time` with
`replicas = 2`, no load balancers. -/
def c1cfg : Config :=
  { general := { max_inactive := 10 },
    managers := [c1m],
    services := [{ name := "time", image := "img", port := 8080, replicas := 2 }],
    load_balancers := [] }


/-- Concrete oracle environment for the C1 witness. -/
def c1env : Env :=
  { self_name := "m1", config := c1cfg, self_plan := {},
    statuses := fun _ => none, perm := [0],
    pickMgr := List.head?, pickVm := List.head?, freshTok := fun n => n }


/-- The C6 counterexample Config: the load balancer's configured address
`10.0.0.2` is the first free address of `m1`'s pool. -/
def c6cfg : Config :=
  { general := { max_inactive := 10 },
    managers := [c1m],
    services := [{ name := "S", image := "img", port := 80, replicas := 1 }],
    load_balancers := [{ service := "S", address := 167772162, port := 80 }] }


/-- Concrete oracle environment for the C6 counterexample. -/
def c6env : Env :=
  { self_name := "m1", config := c6cfg, self_plan := {},
    statuses := fun _ => none, perm := [0],
    pickMgr := List.head?, pickVm := List.head?, freshTok := fun n => n }


/-- The worker entries of a vm list carrying the given service name
(`workers_for_service` applied to an arbitrary vm list, as the loop of
`_remake_plan` does on `new_vms`). -/
def workersIn (vms : List Vm) (service_name : String) : List Worker :=
  vms.filterMap fun vm =>
    match vm with
    | .worker w => if w.service == service_name then some w else none
    | .lb _ => none


/-- The addresses of the worker entries of a vm list. -/
def vmWA (vms : List Vm) : List Nat :=
  vms.filterMap fun vm =>
    match vm with
    | .worker w => some w.address
    | .lb _ => none


/-- The worker addresses a plan holds for each of the given service names. -/
def planWA (plan : Plan) (names : List String) : List Nat :=
  (names.map (fun n => (plan.workers_for_service n).map (fun w => w.address))).flatten


/-- The plan produced by `_remake_plan` in the C1/C6-witness scenario:
version 1, two freshly allocated workers for `time` on `m1`. -/
def c6out : Plan :=
  { version := 1,
    vms := [Vm.worker { service := "time", manager := "m1", address := 167772162,
                        port := 8080, token := 0 },
            Vm.worker { service := "time", manager := "m1", address := 167772163,
                        port := 8080, token := 1 }],
    manager_states := [{ name := "m1", is_primary := true, is_active := true }] }


/-- The plan produced by `_remake_plan` in the C6/C7 scenario (one service
`S` with a configured LB): one worker and one LB whose upstream is exactly
that worker's `(address, port)`. -/
def c7out : Plan :=
  { version := 1,
    vms := [Vm.worker { service := "S", manager := "m1", address := 167772162,
                        port := 80, token := 0 },
            Vm.lb { service := "S", manager := "m1", address := 167772162,
                    port := 80, token := 1, upstream := [(167772162, 80)] }],
    manager_states := [{ name := "m1", is_primary := true, is_active := true }] }


/-- The load balancer entry of `c7out`. -/
def c7outLb : LoadBalancer :=
  { service := "S", manager := "m1", address := 167772162,
    port := 80, token := 1, upstream := [(167772162, 80)] }


/-- The load balancer entry of the C7 counterexample plan: its upstream
lists only the worker on the active manager `m1`. -/
def c7cexLb : LoadBalancer :=
  { service := "S", manager := "m1", address := 167772300,
    port := 80, token := 7, upstream := [(167772162, 9000)] }


/-- The C7 counterexample plan: service `S` has a worker on the active
manager `m1`, a stray worker on the unknown manager `mX`, and an LB whose
upstream lists only the former.  Nothing changes during reconciliation, so
`_remake_plan` returns this very plan. -/
def c7plan : Plan :=
  { version := 4,
    vms := [Vm.worker { service := "S", manager := "m1", address := 167772162,
                        port := 9000, token := 5 },
            Vm.worker { service := "S", manager := "mX", address := 167772163,
                        port := 9000, token := 6 },
            Vm.lb c7cexLb],
    manager_states := [{ name := "m1", is_primary := true, is_active := true }] }


/-- The C7 counterexample Config: one manager `m1`, service `S` with
`replicas = 1`, and a configured LB for `S` matching `c7cexLb`. -/
def c7cfg : Config :=
  { general := { max_inactive := 10 },
    managers := [c1m],
    services := [{ name := "S", image := "img", port := 9000, replicas := 1 }],
    load_balancers := [{ service := "S", address := 167772300, port := 80 }] }


/-- Concrete oracle environment for the C7 counterexample. -/
def c7env : Env :=
  { self_name := "m1", config := c7cfg, self_plan := c7plan,
    statuses := fun _ => none, perm := [0],
    pickMgr := List.head?, pickVm := List.head?, freshTok := fun n => n }

/-!  ## Theorems -/

/-- C2: `save_plan(plan)` is a compare-and-swap write conditioned on the
stored document's version being `plan.version - 1`: it returns `true` iff
the stored document matched and was replaced (exactly one document
changed); a CAS loser — a writer whose base version has been superseded,
i.e. the stored version differs from `plan.version - 1` — never persists
its plan (the call errors and the store is untouched); and every accepted
`save_plan` replaces the store with the plan and increases the stored
version by exactly 1. -/
theorem save_plan_cas_c2 :
    (∀ (store store2 : Option Plan) (p : Plan) (b : Bool),
        save_plan store p = some (store2, b) →
        (b = true ↔
          ∃ st, store = some st ∧ (st.version : Int) = (p.version : Int) - 1))
    ∧ (∀ (st p : Plan), (st.version : Int) ≠ (p.version : Int) - 1 →
        save_plan (some st) p = none)
    ∧ (∀ (st p : Plan) (store2 : Option Plan),
        save_plan (some st) p = some (store2, true) →
        store2 = some p ∧ p.version = st.version + 1) := by
  refine ⟨?_, ?_, ?_⟩
  · intro store store2 p b h
    cases store with
    | none =>
      simp only [save_plan, Option.some.injEq, Prod.mk.injEq] at h
      simp [← h.2]
    | some st =>
      by_cases hc : (st.version : Int) = (p.version : Int) - 1
      · rw [save_plan, if_pos hc] at h
        simp only [Option.some.injEq, Prod.mk.injEq] at h
        simp only [← h.2, true_iff]
        exact ⟨st, rfl, hc⟩
      · rw [save_plan, if_neg hc] at h
        exact absurd h (by simp)
  · intro st p hne
    rw [save_plan, if_neg hne]
  · intro st p store2 h
    by_cases hc : (st.version : Int) = (p.version : Int) - 1
    · rw [save_plan, if_pos hc] at h
      simp only [Option.some.injEq, Prod.mk.injEq] at h
      refine ⟨h.1.symm, ?_⟩
      omega
    · rw [save_plan, if_neg hc] at h
      exact absurd h (by simp)

/-- Witness for C2 at a concrete input: a store holding version 4 accepts a
version-5 plan, persists it, and the version grows by exactly one. -/
theorem save_plan_cas_c2_witness :
    (some { version := 5 } : Option Plan) = some { version := 5 }
    ∧ ({ version := 5 } : Plan).version = ({ version := 4 } : Plan).version + 1 :=
  save_plan_cas_c2.2.2 { version := 4 } { version := 5 }
    (some { version := 5 }) rfl

/-- Lookup through the `hearbeat` update map. -/
lemma lookup_hearbeat_map (tok : Nat) (now : Int) :
    ∀ (tbl : List (Nat × ConnectionStatus)) (st : ConnectionStatus),
      tbl.lookup tok = some st →
      (tbl.map (fun p =>
        if p.1 = tok then (p.1, { p.2 with last_beat_at := some now })
        else p)).lookup tok = some { st with last_beat_at := some now } := by
  intro tbl
  induction tbl with
  | nil => intro st h; simp [List.lookup] at h
  | cons p ps ih =>
    intro st h
    by_cases hk : p.1 = tok
    · have hbe : (tok == p.1) = true := beq_iff_eq.mpr hk.symm
      rw [List.lookup, hbe] at h
      obtain rfl : p.2 = st := Option.some.inj h
      simp only [List.map, if_pos hk]
      rw [List.lookup, hbe]
    · have hbe : (tok == p.1) = false :=
        beq_eq_false_iff_ne.mpr (fun hh => hk hh.symm)
      rw [List.lookup, hbe] at h
      simp only [List.map, if_neg hk]
      rw [List.lookup, hbe]
      exact ih st h

/-- Lookup through `_update_statuses`. -/
lemma lookup_update_statuses (M now : Int) (tok : Nat) :
    ∀ (tbl : List (Nat × ConnectionStatus)) (st : ConnectionStatus),
      tbl.lookup tok = some st →
      (update_statuses M now tbl).1.lookup tok =
        some (update_status M now st).1 := by
  intro tbl
  induction tbl with
  | nil => intro st h; simp [List.lookup] at h
  | cons p ps ih =>
    intro st h
    by_cases hk : p.1 = tok
    · have hbe : (tok == p.1) = true := beq_iff_eq.mpr hk.symm
      rw [List.lookup, hbe] at h
      obtain rfl : p.2 = st := Option.some.inj h
      show ((p.1, (update_status M now p.2).1) ::
        (update_statuses M now ps).1).lookup tok = _
      rw [List.lookup, hbe]
    · have hbe : (tok == p.1) = false :=
        beq_eq_false_iff_ne.mpr (fun hh => hk hh.symm)
      rw [List.lookup, hbe] at h
      show ((p.1, (update_status M now p.2).1) ::
        (update_statuses M now ps).1).lookup tok = _
      rw [List.lookup, hbe]
      exact ih st h

/-- C8: every `hearbeat(token)` on a tracked token stamps `last_beat_at`
with the current instant; `_update_statuses` applies `update_status` to
every tracked entry; an evaluation at most `max_inactive` after the last
beat leaves `is_dead` false (it never sets death, and it clears a previous
death, so a beat revives the entry at the next evaluation); and an
evaluation strictly later than `last_beat_at + max_inactive` on a live
entry sets `dead_since` to exactly `last_beat_at + max_inactive`. -/
theorem heartbeat_liveness_c8 :
    (∀ (tbl : List (Nat × ConnectionStatus)) (tok : Nat) (now : Int)
        (st : ConnectionStatus), tbl.lookup tok = some st →
        (hearbeat tbl tok now).2 = true
        ∧ (hearbeat tbl tok now).1.lookup tok =
            some { st with last_beat_at := some now })
    ∧ (∀ (M now : Int) (tbl : List (Nat × ConnectionStatus)) (tok : Nat)
        (st : ConnectionStatus), tbl.lookup tok = some st →
        (update_statuses M now tbl).1.lookup tok =
          some (update_status M now st).1)
    ∧ (∀ (M now t : Int) (st : ConnectionStatus), st.last_beat_at = some t →
        now ≤ t + M → (update_status M now st).1.is_dead = false)
    ∧ (∀ (M now t : Int) (st : ConnectionStatus), st.last_beat_at = some t →
        t + M < now → st.is_dead = false →
        (update_status M now st).1.dead_since = some (t + M)) := by
  refine ⟨?_, ?_, ?_, ?_⟩
  · intro tbl tok now st h
    constructor
    · simp [hearbeat, h]
    · simp only [hearbeat, h]
      exact lookup_hearbeat_map tok now tbl st h
  · intro M now tbl tok st h
    exact lookup_update_statuses M now tok tbl st h
  · intro M now t st hb hle
    simp only [update_status, hb]
    split_ifs with h1 h2
    · exact absurd h1.1 (by omega)
    · simp [ConnectionStatus.is_dead]
    · have hft : st.is_dead = false := by
        cases hsd : st.is_dead with
        | false => rfl
        | true => exact absurd ⟨hle, hsd⟩ h2
      exact hft
  · intro M now t st hb hlt hlive
    simp only [update_status, hb]
    rw [if_pos ⟨hlt, hlive⟩]

/-- Witness for C8 at concrete inputs: a singleton table with token 7, a
beat at instant 3, and evaluations with `max_inactive = 10` at instants 9
(still alive) and 20 (dead since 13). -/
theorem heartbeat_liveness_c8_witness :
    ((hearbeat [(7, { planned_at := 0 })] 7 3).2 = true
      ∧ (hearbeat [(7, { planned_at := 0 })] 7 3).1.lookup 7 =
          some { planned_at := 0, last_beat_at := some 3 })
    ∧ (update_statuses 10 9 [(7, { planned_at := 0, last_beat_at := some 3 })]).1.lookup 7 =
        some (update_status 10 9 { planned_at := 0, last_beat_at := some 3 }).1
    ∧ (update_status 10 9 { planned_at := 0, last_beat_at := some 3 }).1.is_dead = false
    ∧ (update_status 10 20 { planned_at := 0, last_beat_at := some 3 }).1.dead_since =
        some 13 := by
  refine ⟨?_, ?_, ?_, ?_⟩
  · exact heartbeat_liveness_c8.1 [(7, { planned_at := 0 })] 7 3
      { planned_at := 0 } (by decide)
  · exact heartbeat_liveness_c8.2.1 10 9
      [(7, { planned_at := 0, last_beat_at := some 3 })] 7
      { planned_at := 0, last_beat_at := some 3 } (by decide)
  · exact heartbeat_liveness_c8.2.2.1 10 9 3
      { planned_at := 0, last_beat_at := some 3 } (by decide) (by decide)
  · exact heartbeat_liveness_c8.2.2.2 10 20 3
      { planned_at := 0, last_beat_at := some 3 } (by decide) (by decide)
      (by decide)

/-- C9 counterexample: a frame carrying the unexpected token 42 on an
empty status table does not close the socket — the endpoint loops, so in
particular it never emits a policy-violation (1008) close as the claim
states. -/
theorem websocket_unexpected_c9_cex :
    websocket_frame_step [] 42 0 = ([], WsAction.continueLoop)
    ∧ isClose1008 (websocket_frame_step [] 42 0).2 = false := by
  exact ⟨rfl, rfl⟩

/-- C9 amended: a heartbeat frame whose token is not tracked is ignored —
`hearbeat` returns `false`, the status table is unchanged, and the
connection stays open (the endpoint loops; it closes nothing). -/
theorem websocket_unexpected_c9 (tbl : List (Nat × ConnectionStatus))
    (token : Nat) (now : Int) (h : tbl.lookup token = none) :
    websocket_frame_step tbl token now = (tbl, WsAction.continueLoop)
    ∧ (hearbeat tbl token now).2 = false := by
  simp [websocket_frame_step, hearbeat, h]

/-- Witness for the amended C9 at a concrete input. -/
theorem websocket_unexpected_c9_witness :
    websocket_frame_step [(7, { planned_at := 0 })] 42 0 =
      ([(7, { planned_at := 0 })], WsAction.continueLoop)
    ∧ (hearbeat [(7, { planned_at := 0 })] 42 0).2 = false :=
  websocket_unexpected_c9 [(7, { planned_at := 0 })] 42 0 (by decide)

/-- C10: evaluating the code at the failing input.  `VmBase.name` for a
worker of service `time` on manager `m1` yields
`wso-m1-wrk-time-<uuid>`, but `VM_NAME_REGEX` has only three groups bound
as `(service, manager, token)`, so the greedy match parses
`service = "m1-wrk"` and `manager = "time"`; `list_current_vms` on manager
`m1` then drops the domain because `"time" ≠ "m1"`, contradicting the
claimed naming scheme under which the domain belongs to `m1`. -/
theorem vm_listing_c10 :
    parseVmName (vmBaseName "m1" "wrk" "time" c10uuid) =
      some ("m1-wrk", "time", c10uuid)
    ∧ list_current_vms "m1" [vmBaseName "m1" "wrk" "time" c10uuid] = [] := by
  exact ⟨by decide, by decide⟩

/-- The strict key order unfolded. -/
lemma keyLt_iff (a b : Nat × Bool) :
    keyLt a b = true ↔ a.1 < b.1 ∨ (a.1 = b.1 ∧ a.2 = false ∧ b.2 = true) := by
  cases a with
  | mk a1 a2 =>
    cases b with
    | mk b1 b2 =>
      cases a2 <;> cases b2 <;> simp [keyLt]

lemma keyLt_irrefl (a : Nat × Bool) : keyLt a a = false := by
  rw [Bool.eq_false_iff]
  intro h
  rcases (keyLt_iff a a).mp h with h1 | h2
  · omega
  · rw [h2.2.1] at h2
    exact Bool.false_ne_true h2.2.2

lemma keyLt_trans {a b c : Nat × Bool} (h1 : keyLt a b = true)
    (h2 : keyLt b c = true) : keyLt a c = true := by
  rw [keyLt_iff] at h1 h2 ⊢
  rcases h1 with h1 | h1 <;> rcases h2 with h2 | h2
  · exact Or.inl (h1.trans h2)
  · exact Or.inl (h2.1 ▸ h1)
  · exact Or.inl (h1.1 ▸ h2)
  · exact Or.inr ⟨h1.1.trans h2.1, h1.2.1, h2.2.2⟩

lemma keyLt_of_not_lt_of_lt {a b c : Nat × Bool} (h1 : keyLt a b = false)
    (h2 : keyLt a c = true) : keyLt b c = true := by
  rw [Bool.eq_false_iff] at h1
  rw [keyLt_iff] at h2 ⊢
  rcases h2 with h2 | h2
  · by_cases hb : b.1 < c.1
    · exact Or.inl hb
    · exfalso
      apply h1
      rw [keyLt_iff]
      left
      omega
  · by_cases hb : b.1 < c.1
    · exact Or.inl hb
    · have hbc : b.1 = c.1 ∨ c.1 < b.1 := by omega
      rcases hbc with hbc | hbc
      · refine Or.inr ⟨hbc, ?_, h2.2.2⟩
        cases hb2 : b.2 with
        | false => rfl
        | true =>
          exfalso
          apply h1
          rw [keyLt_iff]
          exact Or.inr ⟨h2.1.trans hbc.symm, h2.2.1, hb2⟩
      · exfalso
        apply h1
        rw [keyLt_iff]
        left
        omega

/-- The running minimum kept by the `min(..., key=...)` fold: it is one of
the candidates and no candidate has a strictly smaller key (so the first
minimal candidate in iteration order wins, as Python's `min` does). -/
lemma foldMin_spec {α : Type} (key : α → Nat × Bool) :
    ∀ (cs : List α) (c : α),
      (cs.foldl (fun best x => if keyLt (key x) (key best) then x else best) c = c
        ∨ cs.foldl (fun best x => if keyLt (key x) (key best) then x else best) c ∈ cs)
      ∧ ∀ a, (a = c ∨ a ∈ cs) →
          keyLt (key a)
            (key (cs.foldl (fun best x =>
              if keyLt (key x) (key best) then x else best) c)) = false := by
  intro cs
  induction cs with
  | nil =>
    intro c
    refine ⟨Or.inl rfl, ?_⟩
    intro a ha
    rcases ha with rfl | ha
    · exact keyLt_irrefl _
    · exact absurd ha (List.not_mem_nil a)
  | cons x xs ih =>
    intro c
    rw [List.foldl_cons]
    by_cases hx : keyLt (key x) (key c) = true
    · rw [if_pos hx]
      obtain ⟨hmem, hmin⟩ := ih x
      refine ⟨Or.inr ?_, ?_⟩
      · rcases hmem with h | h
        · rw [h]
          exact List.mem_cons_self x xs
        · exact List.mem_cons_of_mem x h
      · intro a ha
        rcases ha with rfl | ha
        · rw [Bool.eq_false_iff]
          intro hc
          have hxr := hmin x (Or.inl rfl)
          rw [Bool.eq_false_iff] at hxr
          exact hxr (keyLt_trans hx hc)
        · rcases List.mem_cons.mp ha with rfl | ha
          · exact hmin a (Or.inl rfl)
          · exact hmin a (Or.inr ha)
    · rw [if_neg hx]
      obtain ⟨hmem, hmin⟩ := ih c
      refine ⟨?_, ?_⟩
      · rcases hmem with h | h
        · exact Or.inl h
        · exact Or.inr (List.mem_cons_of_mem x h)
      · intro a ha
        rcases ha with rfl | ha
        · exact hmin a (Or.inl rfl)
        · rcases List.mem_cons.mp ha with rfl | ha
          · rw [Bool.eq_false_iff]
            intro hc
            have hcr := hmin c (Or.inl rfl)
            rw [Bool.eq_false_iff] at hcr
            exact hcr (keyLt_of_not_lt_of_lt (Bool.eq_false_iff.mpr hx) hc)
          · exact hmin a (Or.inr ha)

/-- Every candidate pair produced for the shuffled `min` is a real index. -/
lemma leastDead_cand_get {env : Env} {sts : List ManagerState} {i : Nat}
    {s : ManagerState}
    (h : (i, s) ∈ env.perm.filterMap
      (fun i => (sts.get? i).map (fun s => (i, s)))) :
    sts.get? i = some s := by
  obtain ⟨i0, _, hmap⟩ := List.mem_filterMap.mp h
  cases hg : sts.get? i0 with
  | none => rw [hg] at hmap; exact absurd hmap (by simp)
  | some s0 =>
    rw [hg] at hmap
    simp only [Option.map_some', Option.some.injEq, Prod.mk.injEq] at hmap
    rw [← hmap.1, ← hmap.2]
    exact hg

/-- Under a genuine shuffle, every state appears among the candidates. -/
lemma leastDead_cand_complete {env : Env} {sts : List ManagerState}
    (hperm : env.perm.Perm (List.range sts.length)) {s : ManagerState}
    (hs : s ∈ sts) :
    ∃ i, (i, s) ∈ env.perm.filterMap
      (fun i => (sts.get? i).map (fun s => (i, s))) := by
  obtain ⟨i, hi⟩ := List.mem_iff_get?.mp hs
  refine ⟨i, List.mem_filterMap.mpr ⟨i, ?_, ?_⟩⟩
  · have hlt : i < sts.length := (List.get?_eq_some.mp hi).1
    exact (hperm.mem_iff).mpr (List.mem_range.mpr hlt)
  · rw [hi]
    rfl

/-- `leastDeadIdx` names a real index whose state's key no state beats. -/
lemma leastDeadIdx_min (env : Env) (sts : List ManagerState) (j : Nat)
    (hperm : env.perm.Perm (List.range sts.length))
    (hj : leastDeadIdx env sts = some j) :
    ∃ sj, sts.get? j = some sj ∧
      ∀ s ∈ sts, keyLt (ldKey env.self_name s) (ldKey env.self_name sj) = false := by
  rw [leastDeadIdx] at hj
  cases hcand : env.perm.filterMap (fun i => (sts.get? i).map (fun s => (i, s))) with
  | nil => rw [hcand] at hj; exact absurd hj (by simp)
  | cons c cs =>
    rw [hcand] at hj
    simp only [Option.some.injEq] at hj
    obtain ⟨hmem, hmin⟩ := foldMin_spec (fun p => ldKey env.self_name p.2) cs c
    set r := cs.foldl (fun best x =>
      if keyLt (ldKey env.self_name x.2) (ldKey env.self_name best.2) then x
      else best) c with hr
    have hrc : r ∈ c :: cs := by
      rcases hmem with h | h
      · exact h ▸ List.mem_cons_self c cs
      · exact List.mem_cons_of_mem c h
    have hget : sts.get? r.1 = some r.2 := by
      apply @leastDead_cand_get env sts r.1 r.2
      rw [hcand]
      exact hrc
    refine ⟨r.2, hj ▸ hget, ?_⟩
    intro s hs
    obtain ⟨i, hi⟩ := leastDead_cand_complete hperm hs
    rw [hcand] at hi
    have := hmin (i, s) (by
      rcases List.mem_cons.mp hi with h | h
      · exact Or.inl h
      · exact Or.inr h)
    exact this

/-- `leastDeadIdx` without the shuffle hypothesis still names a real index. -/
lemma leastDeadIdx_valid (env : Env) (sts : List ManagerState) (j : Nat)
    (hj : leastDeadIdx env sts = some j) :
    ∃ sj, sts.get? j = some sj := by
  rw [leastDeadIdx] at hj
  cases hcand : env.perm.filterMap (fun i => (sts.get? i).map (fun s => (i, s))) with
  | nil => rw [hcand] at hj; exact absurd hj (by simp)
  | cons c cs =>
    rw [hcand] at hj
    simp only [Option.some.injEq] at hj
    obtain ⟨hmem, _⟩ := foldMin_spec (fun p => ldKey env.self_name p.2) cs c
    set r := cs.foldl (fun best x =>
      if keyLt (ldKey env.self_name x.2) (ldKey env.self_name best.2) then x
      else best) c with hr
    have hrc : r ∈ c :: cs := by
      rcases hmem with h | h
      · exact h ▸ List.mem_cons_self c cs
      · exact List.mem_cons_of_mem c h
    have hget : sts.get? r.1 = some r.2 := by
      apply @leastDead_cand_get env sts r.1 r.2
      rw [hcand]
      exact hrc
    exact ⟨r.2, hj ▸ hget⟩

/-- C4: with `quorum = ceil(N/2)` over the `N` managers in Config, the
election step of `_remake_manager_states` behaves as claimed: the chosen
least-dead candidate minimizes `(|is_dead_for|, name ≠ self_name)` over all
states; with no current primary it is promoted; with a quorum-dead current
primary and a non-quorum-dead least-dead candidate primacy is transferred
to the candidate; in every other case the current primary is kept
unchanged — in particular a recovered former primary never takes primacy
back from a non-quorum-dead current primary. -/
theorem primary_election_c4 (env : Env) (sts : List ManagerState)
    (hperm : env.perm.Perm (List.range sts.length)) :
    (∀ j, leastDeadIdx env sts = some j → ∃ sj, sts.get? j = some sj ∧
        ∀ s ∈ sts,
          keyLt (ldKey env.self_name s) (ldKey env.self_name sj) = false)
    ∧ (∀ j out, primaryIdx sts = none → leastDeadIdx env sts = some j →
        choosePrimary env sts = some out →
        out = (setPrimary sts j true, j, true))
    ∧ (∀ i j si sj out, primaryIdx sts = some i →
        leastDeadIdx env sts = some j →
        sts.get? i = some si → sts.get? j = some sj →
        si.is_dead (quorum env) = true → sj.is_dead (quorum env) = false →
        choosePrimary env sts = some out →
        out = (setPrimary (setPrimary sts i false) j true, j, true))
    ∧ (∀ i j si sj out, primaryIdx sts = some i →
        leastDeadIdx env sts = some j →
        sts.get? i = some si → sts.get? j = some sj →
        (si.is_dead (quorum env) = false ∨ sj.is_dead (quorum env) = true) →
        choosePrimary env sts = some out →
        out = (sts, i, false)) := by
  refine ⟨fun j hj => leastDeadIdx_min env sts j hperm hj, ?_, ?_, ?_⟩
  · intro j out hpi hld hcp
    rw [choosePrimary, hld, hpi] at hcp
    exact (Option.some.inj hcp).symm
  · intro i j si sj out hpi hld hgi hgj hdead hnot hcp
    simp only [choosePrimary, hld, hpi, hgi, hgj] at hcp
    rw [if_pos ⟨hdead, hnot⟩] at hcp
    exact (Option.some.inj hcp).symm
  · intro i j si sj out hpi hld hgi hgj hkeep hcp
    have hcond : ¬(si.is_dead (quorum env) = true ∧
        sj.is_dead (quorum env) = false) := by
      rintro ⟨h1, h2⟩
      rcases hkeep with h | h
      · rw [h1] at h
        exact Bool.false_ne_true h.symm
      · rw [h2] at h
        exact Bool.false_ne_true h
    simp only [choosePrimary, hld, hpi, hgi, hgj] at hcp
    rw [if_neg hcond] at hcp
    exact (Option.some.inj hcp).symm

/-- Witness for C4 at the concrete transfer scenario: primacy moves from
the quorum-dead `m1` to the least-dead `m2` in one election step. -/
theorem primary_election_c4_witness :
    (([{ name := "m1", is_primary := false, is_dead_for := {"m2", "m3"},
         is_active := true },
       { name := "m2", is_primary := true, is_dead_for := ∅,
         is_active := true }] : List ManagerState), 1, true)
    = (setPrimary (setPrimary c4sts 0 false) 1 true, 1, true) :=
  (primary_election_c4 c4env c4sts (by decide)).2.2.1 0 1
    { name := "m1", is_primary := true, is_dead_for := {"m2", "m3"},
      is_active := true }
    { name := "m2", is_primary := false, is_dead_for := ∅, is_active := true }
    _ (by decide) (by decide) (by decide) (by decide) (by decide) (by decide)
    (by decide)

/-- C1: from the empty plan (version 0, no vms, no manager states), one
reconciliation under the C1 Config yields Plan version 1 holding exactly
two workers on `m1` at the first two pool addresses `10.0.0.2` and
`10.0.0.3` (allocated by ascending scan for the first unused address), and
`m1`'s state has `is_primary = true` and `is_active = true`.  The oracle is
constrained only as Python guarantees: the shuffle is a permutation and
`random.choice` returns a member of a non-empty list. -/
theorem single_node_start_c1 (env : Env)
    (hcfg : env.config = c1cfg)
    (hself : env.self_name = "m1")
    (hstat : env.statuses 77 = none)
    (hperm : env.perm.Perm (List.range (statesPhaseA env {}).length))
    (hpmem : ∀ l m, env.pickMgr l = some m → m ∈ l)
    (hpsome : ∀ l, l ≠ [] → (env.pickMgr l).isSome) :
    remake_plan env {} = some
      { version := 1,
        vms := [Vm.worker { service := "time", manager := "m1",
                            address := 167772162, port := 8080,
                            token := env.freshTok 0 },
                Vm.worker { service := "time", manager := "m1",
                            address := 167772163, port := 8080,
                            token := env.freshTok 1 }],
        manager_states := [{ name := "m1", is_primary := true,
                             is_dead_for := ∅, is_active := true }] } := by
  have hA : statesPhaseA env {} = [{ name := "m1" }] := by
    simp [statesPhaseA, newManagerNames, Plan.state_for, hcfg, c1cfg, c1m]
  have hp1 : env.perm = [0] := by
    rw [hA] at hperm
    have hr : List.range ([({ name := "m1" } : ManagerState)].length) = [0] := by
      decide
    rw [hr] at hperm
    exact List.perm_singleton.mp hperm
  have hpick : env.pickMgr [c1m] = some c1m := by
    have hs := hpsome [c1m] (by simp)
    obtain ⟨m, hm⟩ := Option.isSome_iff_exists.mp hs
    have hmem := hpmem _ _ hm
    rw [List.mem_singleton] at hmem
    rw [hmem] at hm
    exact hm
  have hpick2 : env.pickMgr
      [{ name := "m1", address := 0,
         address_pool := { start := 167772162, stop := 167772170 },
         port := 8000, token := 77, imgs_path := "" }] =
      some { name := "m1", address := 0,
             address_pool := { start := 167772162, stop := 167772170 },
             port := 8000, token := 77, imgs_path := "" } := hpick
  simp [remake_plan, remake_plan_core, remake_manager_states, remakeStatesMid,
    statesPhaseA, newManagerNames, Plan.state_for, updDeadFor, statusIsDead,
    choosePrimary, leastDeadIdx, primaryIdx, setPrimary, quorum, bfs,
    lastIdxOf, addName, deactivate, remake_services, remake_service_workers,
    remake_service_lb, allocWorkers, removeWorkers, lbFor,
    Plan.workers_for_service, Plan.lb_for_service, IPv4Range.generate_one_not_in,
    IPv4Range.rangeList, hcfg, hself, hstat, hp1, hpick2, c1cfg, c1m]
  have hfind1 : List.find? (fun x => true) (List.range 9) = some 0 := by decide
  have hfind2 : List.find? ((fun ip => !decide (ip = 167772162)) ∘
      fun i => 167772162 + i) (List.range 9) = some 1 := by decide
  simp [hfind1, hfind2]

/-- Witness for C1 at the concrete oracle. -/
theorem single_node_start_c1_witness :
    remake_plan c1env {} = some
      { version := 1,
        vms := [Vm.worker { service := "time", manager := "m1",
                            address := 167772162, port := 8080, token := 0 },
                Vm.worker { service := "time", manager := "m1",
                            address := 167772163, port := 8080, token := 1 }],
        manager_states := [{ name := "m1", is_primary := true,
                             is_dead_for := ∅, is_active := true }] } :=
  single_node_start_c1 c1env rfl rfl rfl (by decide)
    (fun l m h => by
      have h2 : l.head? = some m := h
      cases l with
      | nil => exact absurd h2 (by simp)
      | cons a as =>
        have ham : a = m := by simpa using h2
        rw [← ham]
        exact List.mem_cons_self a as)
    (fun l h => by
      cases l with
      | nil => exact absurd rfl h
      | cons a as => rfl)

/-- C6 counterexample: reconciling the empty plan (whose VM addresses are
trivially all distinct) under `c6cfg` produces a plan whose worker and
load balancer share address `10.0.0.2` — worker allocation does not avoid
the configured LB address, so two VM entries share an address. -/
theorem address_uniqueness_c6_cex :
    (remake_plan c6env {}).map (fun p => p.vms.map Vm.address) =
      some [167772162, 167772162]
    ∧ ((({} : Plan).vms).map Vm.address).Nodup
    ∧ ¬ ([167772162, 167772162] : List Nat).Nodup := by
  refine ⟨by decide, by decide, by decide⟩

/-- Setting an index to the element already there is the identity. -/
lemma list_set_same {α : Type} (l : List α) :
    ∀ (i : Nat) (a : α), l.get? i = some a → l.set i a = l := by
  induction l with
  | nil => intro i a h; simp at h
  | cons x xs ih =>
    intro i a h
    cases i with
    | zero =>
      simp only [List.get?] at h
      rw [List.set_cons_zero, ← Option.some.inj h]
    | succ n =>
      simp only [List.get?] at h
      rw [List.set_cons_succ, ih n a h]

/-- Counting through `List.set`, stated without truncated subtraction. -/
lemma countP_set_add {α : Type} (p : α → Bool) (l : List α) :
    ∀ (i : Nat) (a b : α), l.get? i = some a →
      (l.set i b).countP p + (if p a then 1 else 0) =
        l.countP p + (if p b then 1 else 0) := by
  induction l with
  | nil => intro i a b h; simp at h
  | cons x xs ih =>
    intro i a b h
    cases i with
    | zero =>
      simp only [List.get?] at h
      obtain rfl : x = a := Option.some.inj h
      simp only [List.set_cons_zero, List.countP_cons]
      omega
    | succ n =>
      simp only [List.get?] at h
      simp only [List.set_cons_succ, List.countP_cons]
      have := ih n a b h
      omega

/-- Equal images under a Bool-valued map give equal `countP`. -/
lemma countP_eq_of_map_eq {l₁ l₂ : List ManagerState}
    (h : l₁.map (fun s => s.is_primary) = l₂.map (fun s => s.is_primary)) :
    l₁.countP (fun s => s.is_primary) = l₂.countP (fun s => s.is_primary) := by
  have h1 : (l₁.map (fun s => s.is_primary)).countP (fun b => b) =
      (l₂.map (fun s => s.is_primary)).countP (fun b => b) := by rw [h]
  rwa [List.countP_map, List.countP_map] at h1

/-- `updDeadFor` only rewrites `is_dead_for`; any observation that ignores
that field is preserved. -/
lemma updDeadFor_map {β : Type} (env : Env) (f : ManagerState → β)
    (hf : ∀ s x, f { s with is_dead_for := x } = f s) :
    ∀ (ms : List ManagerConfig) (sts : List ManagerState),
      ((updDeadFor env ms sts).1).map f = sts.map f := by
  intro ms
  induction ms with
  | nil => intro sts; cases sts <;> rfl
  | cons m ms ih =>
    intro sts
    cases sts with
    | nil => rfl
    | cons s ss =>
      simp only [updDeadFor, List.map_cons]
      rw [ih ss]
      congr 1
      split_ifs <;> simp [hf]

/-- `setPrimary` only rewrites `is_primary`. -/
lemma setPrimary_map {β : Type} (f : ManagerState → β)
    (hf : ∀ s b, f { s with is_primary := b } = f s)
    (sts : List ManagerState) (i : Nat) (b : Bool) :
    (setPrimary sts i b).map f = sts.map f := by
  rw [setPrimary]
  cases hg : sts.get? i with
  | none => rfl
  | some s =>
    rw [List.map_set, hf]
    apply list_set_same
    rw [List.get?_eq_getElem?, List.getElem?_map, ← List.get?_eq_getElem?, hg]
    rfl

/-- The BFS only rewrites `is_active`; any observation ignoring that field
is preserved, and the changed flag is monotone. -/
lemma bfs_map {β : Type} (f : ManagerState → β)
    (hf : ∀ s, f { s with is_active := true } = f s) :
    ∀ (fuel : Nat) (sts : List ManagerState) (visited toVisit : List String)
      (changed : Bool) (out : List ManagerState × List String × Bool),
      bfs fuel sts visited toVisit changed = some out →
      out.1.map f = sts.map f ∧ (changed = true → out.2.2 = true) := by
  intro fuel
  induction fuel with
  | zero =>
    intro sts visited toVisit changed out h
    cases toVisit with
    | nil =>
      simp only [bfs] at h
      obtain rfl := Option.some.inj h
      exact ⟨rfl, fun hc => hc⟩
    | cons n rest =>
      simp only [bfs] at h
      exact Option.noConfusion h
  | succ fuel ih =>
    intro sts visited toVisit changed out h
    cases toVisit with
    | nil =>
      simp only [bfs] at h
      obtain rfl := Option.some.inj h
      exact ⟨rfl, fun hc => hc⟩
    | cons n rest =>
      simp only [bfs] at h
      cases hL : lastIdxOf n sts with
      | none =>
        simp only [hL] at h
        exact Option.noConfusion h
      | some i =>
        simp only [hL] at h
        cases hG : sts.get? i with
        | none =>
          simp only [hG] at h
          exact Option.noConfusion h
        | some s =>
          simp only [hG] at h
          cases hA : s.is_active with
          | true =>
            simp only [hA, if_true] at h
            exact ih _ _ _ _ _ h
          | false =>
            simp only [hA, Bool.false_eq_true, if_false] at h
            obtain ⟨h1, h2⟩ := ih _ _ _ _ _ h
            refine ⟨?_, fun _ => h2 rfl⟩
            rw [h1, List.map_set, hf]
            apply list_set_same
            rw [List.get?_eq_getElem?, List.getElem?_map, ← List.get?_eq_getElem?,
              hG]
            rfl

/-- The final deactivation pass only rewrites `is_active`. -/
lemma deactivate_map {β : Type} (f : ManagerState → β)
    (hf : ∀ s, f { s with is_active := false } = f s) (visited : List String) :
    ∀ (sts : List ManagerState),
      ((deactivate visited sts).1).map f = sts.map f := by
  intro sts
  induction sts with
  | nil => rfl
  | cons s ss ih =>
    simp only [deactivate]
    split_ifs <;> simp [hf, ih]

/-- The changed flag of the services loop is monotone. -/
lemma remake_services_mono (env : Env) (plan : Plan)
    (active : List ManagerConfig) :
    ∀ (rem : List ServiceConfig) (acc : List Vm) (k : Nat)
      (out : List Vm × Bool),
      remake_services env plan active rem acc true k = some out →
      out.2 = true := by
  intro rem
  induction rem with
  | nil =>
    intro acc k out h
    simp only [remake_services] at h
    obtain rfl := Option.some.inj h
    rfl
  | cons s rest ih =>
    intro acc k out h
    simp only [remake_services] at h
    cases hw : remake_service_workers env s plan acc active k with
    | none =>
      simp only [hw] at h
      exact Option.noConfusion h
    | some w =>
      obtain ⟨ws, cW, k1⟩ := w
      simp only [hw] at h
      cases hl : remake_service_lb env s
          (lbFor env.config.load_balancers s.name) plan ws active k1 with
      | none =>
        simp only [hl] at h
        exact Option.noConfusion h
      | some lb =>
        obtain ⟨lbs, cL, k2⟩ := lb
        simp only [hl, Bool.true_or] at h
        exact ih _ _ _ h

/-- Relating `primaryIdx` to the number of primary states: either no
unique primary exists and the count is not 1, or `primaryIdx` names the
unique primary and the count is 1. -/
lemma primaryIdx_cases (sts : List ManagerState) :
    (primaryIdx sts = none ∧ sts.countP (fun s => s.is_primary) ≠ 1)
    ∨ (∃ i si, primaryIdx sts = some i ∧ sts.get? i = some si ∧
        si.is_primary = true ∧ sts.countP (fun s => s.is_primary) = 1) := by
  have hlen : ∀ (n : Nat) (l : List ManagerState),
      ((List.enumFrom n l).filter (fun p => p.2.is_primary)).length =
        l.countP (fun s => s.is_primary) := by
    intro n l
    induction l generalizing n with
    | nil => rfl
    | cons s ss ih =>
      simp only [List.enumFrom, List.filter_cons, List.countP_cons]
      cases hp : s.is_primary with
      | false => simp [hp, ih (n + 1)]
      | true => simp [hp, ih (n + 1)]
  have hcount : ((sts.enum.filter (fun p => p.2.is_primary)).map
      (fun p => p.1)).length = sts.countP (fun s => s.is_primary) := by
    rw [List.length_map]
    exact hlen 0 sts
  rw [primaryIdx]
  cases hm : (sts.enum.filter (fun p => p.2.is_primary)).map (fun p => p.1) with
  | nil =>
    left
    rw [hm] at hcount
    exact ⟨rfl, by rw [← hcount]; simp⟩
  | cons i rest =>
    cases rest with
    | nil =>
      right
      rw [hm] at hcount
      have hmem : i ∈ (sts.enum.filter (fun p => p.2.is_primary)).map
          (fun p => p.1) := by rw [hm]; exact List.mem_cons_self i []
      obtain ⟨x, hx, hx1⟩ := List.mem_map.mp hmem
      have hxe := List.mem_filter.mp hx
      have hget : sts.get? x.1 = some x.2 := by
        rw [List.get?_eq_getElem?]
        exact List.mem_enum_iff_getElem?.mp hxe.1
      refine ⟨i, x.2, rfl, hx1 ▸ hget, ?_, by rw [← hcount]; rfl⟩
      simpa using hxe.2
    | cons j rest2 =>
      left
      rw [hm] at hcount
      refine ⟨rfl, ?_⟩
      rw [← hcount]
      simp

/-- The election step of `_remake_manager_states` leaves exactly one
primary when at most one was primary before; when it reports no change the
states are untouched and exactly one primary already existed. -/
lemma choosePrimary_count (env : Env) (sts : List ManagerState)
    (out : List ManagerState × Nat × Bool)
    (hle : sts.countP (fun s => s.is_primary) ≤ 1)
    (h : choosePrimary env sts = some out) :
    out.1.countP (fun s => s.is_primary) = 1
    ∧ (out.2.2 = false → out.1 = sts ∧
        sts.countP (fun s => s.is_primary) = 1) := by
  cases hld : leastDeadIdx env sts with
  | none =>
    simp only [choosePrimary, hld] at h
    exact Option.noConfusion h
  | some j =>
    obtain ⟨sj, hgj⟩ := leastDeadIdx_valid env sts j hld
    rcases primaryIdx_cases sts with ⟨hpi, hc⟩ | ⟨i, si, hpi, hgi, hprim, hc⟩
    · -- no unique primary: with the ≤ 1 hypothesis, none is primary
      simp only [choosePrimary, hld, hpi] at h
      obtain rfl := Option.some.inj h
      have hz : sts.countP (fun s => s.is_primary) = 0 := by omega
      have hall := List.countP_eq_zero.mp hz
      have hsjf : sj.is_primary = false := by
        have := hall sj (List.get?_mem hgj)
        simpa using this
      refine ⟨?_, fun hfalse => absurd hfalse (by simp)⟩
      have hadd := countP_set_add (fun s => s.is_primary) sts j sj
        { sj with is_primary := true } hgj
      simp only [hsjf] at hadd
      simp only [setPrimary, hgj]
      simp at hadd
      omega
    · simp only [choosePrimary, hld, hpi, hgi, hgj] at h
      by_cases hcond : si.is_dead (quorum env) = true ∧
          sj.is_dead (quorum env) = false
      · rw [if_pos hcond] at h
        obtain rfl := Option.some.inj h
        have hij : i ≠ j := by
          intro hij
          rw [hij, hgj] at hgi
          obtain rfl := Option.some.inj hgi
          rw [hcond.2] at hcond
          exact Bool.false_ne_true hcond.1
        -- after demoting i the count is 0
        have h1 := countP_set_add (fun s => s.is_primary) sts i si
          { si with is_primary := false } hgi
        simp only [hprim] at h1
        simp at h1
        have hz : (sts.set i { si with is_primary := false }).countP
            (fun s => s.is_primary) = 0 := by omega
        -- the element at j is unchanged
        have hgj2 : (sts.set i { si with is_primary := false }).get? j =
            some sj := by
          rw [List.get?_eq_getElem?, List.getElem?_set_ne hij,
            ← List.get?_eq_getElem?]
          exact hgj
        have hsjf : sj.is_primary = false := by
          have := List.countP_eq_zero.mp hz sj (List.get?_mem hgj2)
          simpa using this
        have h2 := countP_set_add (fun s => s.is_primary)
          (sts.set i { si with is_primary := false }) j sj
          { sj with is_primary := true } hgj2
        simp only [hsjf] at h2
        simp at h2
        refine ⟨?_, fun hfalse => absurd hfalse (by simp)⟩
        simp only [setPrimary, hgi, hgj2]
        omega
      · rw [if_neg hcond] at h
        obtain rfl := Option.some.inj h
        exact ⟨hc, fun _ => ⟨rfl, hc⟩⟩

/-- The membership pass appends only non-primary fresh states. -/
lemma statesPhaseA_countP (env : Env) (plan : Plan) :
    (statesPhaseA env plan).countP (fun s => s.is_primary) =
      plan.manager_states.countP (fun s => s.is_primary) := by
  rw [statesPhaseA, List.countP_append]
  have hz : ((newManagerNames env plan).map
      (fun n => ({ name := n } : ManagerState))).countP
      (fun s => s.is_primary) = 0 := by
    rw [List.countP_eq_zero]
    intro a ha
    obtain ⟨n, _, rfl⟩ := List.mem_map.mp ha
    simp
  rw [hz, Nat.add_zero]

/-- `_remake_manager_states` emits exactly one primary when at most one
was primary before; when it reports no change, exactly one primary already
existed in the input plan. -/
lemma remake_manager_states_count (env : Env) (plan : Plan)
    (sts : List ManagerState) (ch : Bool)
    (hle : plan.manager_states.countP (fun s => s.is_primary) ≤ 1)
    (h : remake_manager_states env plan = some (sts, ch)) :
    sts.countP (fun s => s.is_primary) = 1
    ∧ (ch = false →
        plan.manager_states.countP (fun s => s.is_primary) = 1) := by
  rw [remake_manager_states] at h
  cases hmid : remakeStatesMid env plan with
  | none =>
    simp only [hmid] at h
    exact Option.noConfusion h
  | some mid =>
    obtain ⟨sts2, pidx, c0⟩ := mid
    simp only [hmid] at h
    cases hprim : sts2.get? pidx with
    | none =>
      simp only [hprim] at h
      exact Option.noConfusion h
    | some prim =>
      simp only [hprim] at h
      cases hbfs : bfs (sts2.length + 1) sts2 [] [prim.name] c0 with
      | none =>
        simp only [hbfs] at h
        exact Option.noConfusion h
      | some bout =>
        obtain ⟨sts3, visited, c1⟩ := bout
        simp only [hbfs] at h
        have hinj := Option.some.inj h
        have hsts : (deactivate visited sts3).1 = sts :=
          congrArg Prod.fst hinj
        have hch : (c1 || (deactivate visited sts3).2) = ch :=
          congrArg Prod.snd hinj
        -- unfold the mid step
        rw [remakeStatesMid] at hmid
        cases hcp : choosePrimary env
            (updDeadFor env env.config.managers (statesPhaseA env plan)).1 with
        | none =>
          simp only [hcp] at hmid
          exact Option.noConfusion hmid
        | some cpout =>
          obtain ⟨s2, p2, cE⟩ := cpout
          simp only [hcp] at hmid
          have hinj2 := Option.some.inj hmid
          have h2 : s2 = sts2 := congrArg Prod.fst hinj2
          have hc0 : ((!(newManagerNames env plan).isEmpty) ||
              (updDeadFor env env.config.managers (statesPhaseA env plan)).2 ||
              cE) = c0 := congrArg (fun x => x.2.2) hinj2
          -- counts through the phases
          have hB : ((updDeadFor env env.config.managers
              (statesPhaseA env plan)).1).countP (fun s => s.is_primary) =
              plan.manager_states.countP (fun s => s.is_primary) := by
            rw [countP_eq_of_map_eq
              (updDeadFor_map env (fun s => s.is_primary)
                (fun s x => rfl) env.config.managers (statesPhaseA env plan))]
            exact statesPhaseA_countP env plan
          obtain ⟨hone, hkeep⟩ := choosePrimary_count env _ (s2, p2, cE)
            (by rw [hB]; exact hle) hcp
          obtain ⟨hbfs_map, hbfs_mono⟩ := bfs_map (fun s => s.is_primary)
            (fun s => rfl) (sts2.length + 1) sts2 [] [prim.name] c0
            (sts3, visited, c1) hbfs
          have h3 : sts3.countP (fun s => s.is_primary) =
              sts2.countP (fun s => s.is_primary) :=
            countP_eq_of_map_eq hbfs_map
          have h4 : sts.countP (fun s => s.is_primary) =
              sts3.countP (fun s => s.is_primary) := by
            rw [← hsts]
            exact countP_eq_of_map_eq
              (deactivate_map (fun s => s.is_primary) (fun s => rfl) visited sts3)
          constructor
          · rw [h4, h3, ← h2]
            exact hone
          · intro hchf
            rw [← hch] at hchf
            have hc1 : c1 = false := (Bool.or_eq_false_iff.mp hchf).1
            have hc0f : c0 = false := by
              cases hc0f : c0 with
              | false => rfl
              | true =>
                rw [hc0f] at hbfs_mono
                exact absurd (hbfs_mono rfl) (by rw [hc1]; simp)
            have hcE : cE = false := by
              rw [← hc0] at hc0f
              exact (Bool.or_eq_false_iff.mp hc0f).2
            obtain ⟨_, hcount1⟩ := hkeep hcE
            rw [← hB]
            exact hcount1

/-- C5: if at most one state in the input plan is marked primary, every
plan that `_remake_plan` produces has exactly one primary manager state
(the election promotes, transfers, or keeps a unique primary, and the
unchanged case returns the input plan, which must already have had exactly
one). -/
theorem single_primary_c5 (env : Env) (plan p : Plan)
    (hle : plan.manager_states.countP (fun s => s.is_primary) ≤ 1)
    (hself : env.self_plan = plan)
    (h : remake_plan env plan = some p) :
    p.manager_states.countP (fun s => s.is_primary) = 1 := by
  rw [remake_plan] at h
  cases hms : remake_manager_states env plan with
  | none =>
    simp only [remake_plan_core, hms] at h
    exact Option.noConfusion h
  | some msc =>
    obtain ⟨sts, cM⟩ := msc
    obtain ⟨hone, hkeep⟩ := remake_manager_states_count env plan sts cM hle hms
    cases hsv : remake_services env plan
        ((env.config.managers.zip sts).filterMap
          (fun q => if q.2.is_active then some q.1 else none))
        env.config.services [] cM 0 with
    | none =>
      simp only [remake_plan_core, hms, hsv] at h
      exact Option.noConfusion h
    | some sv =>
      obtain ⟨vms, changed⟩ := sv
      simp only [remake_plan_core, hms, hsv] at h
      obtain rfl := Option.some.inj h
      cases changed with
      | true =>
        rw [if_pos rfl]
        exact hone
      | false =>
        rw [if_neg (by simp), hself]
        apply hkeep
        cases hcM : cM with
        | false => rfl
        | true =>
          rw [hcM] at hsv
          have := remake_services_mono env plan
            ((env.config.managers.zip sts).filterMap
              (fun q => if q.2.is_active then some q.1 else none))
            env.config.services [] 0 (vms, false) hsv
          exact absurd this (by simp)

/-- The reachability graph the BFS reads: each state's name paired with its
`is_dead_for` set. -/
def graphOf (sts : List ManagerState) : List (String × Finset String) :=
  sts.map (fun s => (s.name, s.is_dead_for))

/-- Reachability from `root`: from a reached manager `a` one traverses into
the manager named `p.1` exactly when `a ∉ p.2`, i.e. `p.1` is not dead-for
`a` (the edge relation of `_remake_manager_states`, lines 275-280). -/
inductive Reach (g : List (String × Finset String)) (root : String) :
    String → Prop
  | root : Reach g root root
  | step {a : String} {p : String × Finset String} :
      Reach g root a → p ∈ g → a ∉ p.2 → Reach g root p.1

lemma mem_addName {x nm : String} {l : List String} :
    x ∈ addName nm l ↔ x ∈ l ∨ x = nm := by
  rw [addName]
  split_ifs with hmem
  · constructor
    · exact Or.inl
    · rintro (h | rfl)
      · exact h
      · exact hmem
  · simp [List.mem_append]

lemma addName_nodup {nm : String} {l : List String} (h : l.Nodup) :
    (addName nm l).Nodup := by
  rw [addName]
  split_ifs with hmem
  · exact h
  · simp [List.nodup_append, h, hmem]

lemma mem_foldl_addName {x : String} :
    ∀ (adds : List String) (acc : List String),
      x ∈ adds.foldl (fun acc m => addName m acc) acc ↔
        x ∈ acc ∨ x ∈ adds := by
  intro adds
  induction adds with
  | nil => intro acc; simp
  | cons a as ih =>
    intro acc
    rw [List.foldl_cons, ih (addName a acc), mem_addName]
    constructor
    · rintro ((h | h) | h)
      · exact Or.inl h
      · exact Or.inr (by rw [h]; exact List.mem_cons_self _ _)
      · exact Or.inr (List.mem_cons_of_mem a h)
    · rintro (h | h)
      · exact Or.inl (Or.inl h)
      · rcases List.mem_cons.mp h with rfl | h
        · exact Or.inl (Or.inr rfl)
        · exact Or.inr h

lemma foldl_addName_nodup :
    ∀ (adds : List String) (acc : List String), acc.Nodup →
      (adds.foldl (fun acc m => addName m acc) acc).Nodup := by
  intro adds
  induction adds with
  | nil => intro acc h; exact h
  | cons a as ih =>
    intro acc h
    rw [List.foldl_cons]
    exact ih (addName a acc) (addName_nodup h)

/-- The dict-style lookup names a real index whose state carries the looked
up name. -/
lemma lastIdxOf_spec {n : String} {sts : List ManagerState} {i : Nat}
    (h : lastIdxOf n sts = some i) :
    ∃ s, sts.get? i = some s ∧ s.name = n := by
  rw [lastIdxOf] at h
  have hmem : i ∈ (sts.enum.filter (fun p => p.2.name == n)).map
      (fun p => p.1) := List.mem_of_mem_getLast? h
  obtain ⟨x, hx, hx1⟩ := List.mem_map.mp hmem
  have hxe := List.mem_filter.mp hx
  have hget : sts.get? x.1 = some x.2 := by
    rw [List.get?_eq_getElem?]
    exact List.mem_enum_iff_getElem?.mp hxe.1
  refine ⟨x.2, hx1 ▸ hget, ?_⟩
  simpa using hxe.2

/-- Under distinct names, equal names force equal indices. -/
lemma name_index_inj {sts : List ManagerState}
    (hnd : (sts.map (fun s => s.name)).Nodup) {i j : Nat}
    {a b : ManagerState} (hi : sts.get? i = some a) (hj : sts.get? j = some b)
    (hn : a.name = b.name) : i = j := by
  have h1 : (sts.map (fun s => s.name)).get? i = some a.name := by
    rw [List.get?_eq_getElem?, List.getElem?_map, ← List.get?_eq_getElem?, hi]
    rfl
  have h2 : (sts.map (fun s => s.name)).get? j = some b.name := by
    rw [List.get?_eq_getElem?, List.getElem?_map, ← List.get?_eq_getElem?, hj]
    rfl
  have hlt : i < (sts.map (fun s => s.name)).length := by
    rw [List.length_map]
    exact (List.get?_eq_some.mp hi).1
  exact List.get?_inj hlt hnd (by rw [h1, h2, hn])

/-- One BFS pop preserves the worklist invariants: popping `s.name`,
marking it visited, and enqueueing its not-dead-for neighbours keeps every
visited and queued name reachable, keeps the visited set closed into the
queue, keeps the root covered, and keeps the queue duplicate-free and
disjoint from the visited set. -/
lemma bfs_step_invariants (g : List (String × Finset String)) (root : String)
    (s : ManagerState) (visited rest adds toVisit2 : List String)
    (hadds : ∀ x, x ∈ adds ↔
      ∃ p ∈ g, x = p.1 ∧ s.name ∉ p.2 ∧ p.1 ∉ addName s.name visited)
    (htv2 : ∀ x, x ∈ toVisit2 ↔ x ∈ rest ∨ x ∈ adds)
    (htv2nd : toVisit2.Nodup)
    (I1 : ∀ x ∈ visited, Reach g root x)
    (I2 : ∀ x ∈ s.name :: rest, Reach g root x)
    (I3 : ∀ a ∈ visited, ∀ p ∈ g, a ∉ p.2 →
      p.1 ∈ visited ∨ p.1 ∈ s.name :: rest)
    (I4 : root ∈ visited ∨ root ∈ s.name :: rest)
    (I5 : (s.name :: rest).Nodup)
    (I6 : ∀ x ∈ s.name :: rest, x ∉ visited) :
    (∀ x ∈ addName s.name visited, Reach g root x)
    ∧ (∀ x ∈ toVisit2, Reach g root x)
    ∧ (∀ a ∈ addName s.name visited, ∀ p ∈ g, a ∉ p.2 →
        p.1 ∈ addName s.name visited ∨ p.1 ∈ toVisit2)
    ∧ (root ∈ addName s.name visited ∨ root ∈ toVisit2)
    ∧ toVisit2.Nodup
    ∧ (∀ x ∈ toVisit2, x ∉ addName s.name visited) := by
  have hReach_n : Reach g root s.name := I2 s.name (List.mem_cons_self _ _)
  refine ⟨?_, ?_, ?_, ?_, htv2nd, ?_⟩
  · intro x hx
    rcases mem_addName.mp hx with hx | rfl
    · exact I1 x hx
    · exact hReach_n
  · intro x hx
    rcases (htv2 x).mp hx with hx | hx
    · exact I2 x (List.mem_cons_of_mem _ hx)
    · obtain ⟨p, hp, rfl, hd, _⟩ := (hadds x).mp hx
      exact Reach.step hReach_n hp hd
  · intro a ha p hp hd
    rcases mem_addName.mp ha with ha | rfl
    · rcases I3 a ha p hp hd with hin | hin
      · exact Or.inl (mem_addName.mpr (Or.inl hin))
      · rcases List.mem_cons.mp hin with heq | hin
        · exact Or.inl (mem_addName.mpr (Or.inr heq))
        · exact Or.inr ((htv2 p.1).mpr (Or.inl hin))
    · by_cases hv : p.1 ∈ addName s.name visited
      · exact Or.inl hv
      · exact Or.inr ((htv2 p.1).mpr (Or.inr ((hadds p.1).mpr ⟨p, hp, rfl, hd, hv⟩)))
  · rcases I4 with h | h
    · exact Or.inl (mem_addName.mpr (Or.inl h))
    · rcases List.mem_cons.mp h with heq | h
      · exact Or.inl (mem_addName.mpr (Or.inr heq))
      · exact Or.inr ((htv2 root).mpr (Or.inl h))
  · intro x hx hmem
    rcases (htv2 x).mp hx with hx | hx
    · rcases mem_addName.mp hmem with hv | rfl
      · exact I6 x (List.mem_cons_of_mem _ hx) hv
      · exact (List.nodup_cons.mp I5).1 hx
    · obtain ⟨p, _, rfl, _, hnv⟩ := (hadds x).mp hx
      exact hnv hmem

/-- The enqueued neighbour names of a popped state, characterized through
the graph. -/
lemma adds_mem_iff (g : List (String × Finset String)) (s : ManagerState)
    (visited : List String) (sts1 : List ManagerState)
    (hg1 : graphOf sts1 = g) (x : String) :
    x ∈ (sts1.filter (fun o => !decide (s.name ∈ o.is_dead_for) &&
        !decide (o.name ∈ addName s.name visited))).map (fun o => o.name) ↔
      ∃ p ∈ g, x = p.1 ∧ s.name ∉ p.2 ∧ p.1 ∉ addName s.name visited := by
  constructor
  · intro hx
    obtain ⟨o, ho, rfl⟩ := List.mem_map.mp hx
    obtain ⟨hos, hcond⟩ := List.mem_filter.mp ho
    simp only [Bool.and_eq_true, Bool.not_eq_true',
      decide_eq_false_iff_not] at hcond
    refine ⟨(o.name, o.is_dead_for), ?_, rfl, hcond.1, hcond.2⟩
    rw [← hg1]
    exact List.mem_map.mpr ⟨o, hos, rfl⟩
  · rintro ⟨p, hp, rfl, hd, hv⟩
    rw [← hg1] at hp
    obtain ⟨o, ho, rfl⟩ := List.mem_map.mp hp
    refine List.mem_map.mpr ⟨o, List.mem_filter.mpr ⟨ho, ?_⟩, rfl⟩
    simp only [Bool.and_eq_true, Bool.not_eq_true', decide_eq_false_iff_not]
    exact ⟨hd, hv⟩

/-- Worklist characterization of the BFS loop: when it returns, the visited
list is exactly the set of managers reachable from `root`, previously
visited names persist, and every state keeps its name, `is_dead_for` and
`is_primary`, while `is_active` is switched on exactly for the names
visited during this run. -/
lemma bfs_spec (g : List (String × Finset String)) (root : String) :
    ∀ (fuel : Nat) (sts : List ManagerState) (visited toVisit : List String)
      (changed : Bool) (out : List ManagerState × List String × Bool),
      bfs fuel sts visited toVisit changed = some out →
      graphOf sts = g →
      (sts.map (fun s => s.name)).Nodup →
      (∀ x ∈ visited, Reach g root x) →
      (∀ x ∈ toVisit, Reach g root x) →
      (∀ a ∈ visited, ∀ p ∈ g, a ∉ p.2 → p.1 ∈ visited ∨ p.1 ∈ toVisit) →
      (root ∈ visited ∨ root ∈ toVisit) →
      toVisit.Nodup →
      (∀ x ∈ toVisit, x ∉ visited) →
      ((∀ x ∈ out.2.1, Reach g root x)
        ∧ (∀ x, Reach g root x → x ∈ out.2.1)
        ∧ (∀ x ∈ visited, x ∈ out.2.1)
        ∧ (∀ j t, sts.get? j = some t → ∃ t2, out.1.get? j = some t2 ∧
            t2.name = t.name ∧ t2.is_dead_for = t.is_dead_for ∧
            t2.is_primary = t.is_primary ∧
            t2.is_active = (t.is_active ||
              (decide (t.name ∈ out.2.1) && !decide (t.name ∈ visited))))) := by
  intro fuel
  induction fuel with
  | zero =>
    intro sts visited toVisit changed out h hg hnd I1 I2 I3 I4 I5 I6
    cases toVisit with
    | cons n rest =>
      simp only [bfs] at h
      exact Option.noConfusion h
    | nil =>
      simp only [bfs] at h
      obtain rfl := Option.some.inj h
      refine ⟨I1, ?_, fun x hx => hx, ?_⟩
      · intro x hx
        induction hx with
        | root =>
          rcases I4 with h4 | h4
          · exact h4
          · exact absurd h4 (List.not_mem_nil _)
        | step ha hp hd ihr =>
          rcases I3 _ ihr _ hp hd with hin | hin
          · exact hin
          · exact absurd hin (List.not_mem_nil _)
      · intro j t hj
        refine ⟨t, hj, rfl, rfl, rfl, ?_⟩
        simp
  | succ fuel ih =>
    intro sts visited toVisit changed out h hg hnd I1 I2 I3 I4 I5 I6
    cases toVisit with
    | nil =>
      simp only [bfs] at h
      obtain rfl := Option.some.inj h
      refine ⟨I1, ?_, fun x hx => hx, ?_⟩
      · intro x hx
        induction hx with
        | root =>
          rcases I4 with h4 | h4
          · exact h4
          · exact absurd h4 (List.not_mem_nil _)
        | step ha hp hd ihr =>
          rcases I3 _ ihr _ hp hd with hin | hin
          · exact hin
          · exact absurd hin (List.not_mem_nil _)
      · intro j t hj
        refine ⟨t, hj, rfl, rfl, rfl, ?_⟩
        simp
    | cons n rest =>
      simp only [bfs] at h
      cases hL : lastIdxOf n sts with
      | none =>
        simp only [hL] at h
        exact Option.noConfusion h
      | some i =>
        simp only [hL] at h
        cases hG : sts.get? i with
        | none =>
          simp only [hG] at h
          exact Option.noConfusion h
        | some s =>
          simp only [hG] at h
          obtain ⟨s0, hs0, hs0n⟩ := lastIdxOf_spec hL
          rw [hG] at hs0
          obtain rfl : s = s0 := Option.some.inj hs0
          subst hs0n
          have hlen : i < sts.length := (List.get?_eq_some.mp hG).1
          have hrest_nd : rest.Nodup := (List.nodup_cons.mp I5).2
          cases hA : s.is_active with
          | true =>
            simp only [hA, if_true] at h
            obtain ⟨J1, J2, J3, J4, J5, J6⟩ :=
              bfs_step_invariants g root s visited rest _ _
                (adds_mem_iff g s visited sts hg)
                (fun x => mem_foldl_addName _ rest)
                (foldl_addName_nodup _ rest hrest_nd) I1 I2 I3 I4 I5 I6
            obtain ⟨C1, C2, C3, C4⟩ :=
              ih _ _ _ _ _ h hg hnd J1 J2 J3 J4 J5 J6
            refine ⟨C1, C2, fun x hx => C3 x (mem_addName.mpr (Or.inl hx)), ?_⟩
            intro j t hj
            obtain ⟨t2, ht2, htn, htd, htp, hta⟩ := C4 j t hj
            refine ⟨t2, ht2, htn, htd, htp, ?_⟩
            by_cases he : t.name = s.name
            · have hji : j = i := name_index_inj hnd hj hG he
              rw [hji] at hj
              have hts : t = s := Option.some.inj (hj.symm.trans hG)
              subst hts
              rw [hA] at hta ⊢
              simpa using hta
            · have hvv : decide (t.name ∈ addName s.name visited) =
                  decide (t.name ∈ visited) := by
                refine decide_eq_decide.mpr ?_
                rw [mem_addName]
                exact ⟨fun hh => hh.resolve_right he, Or.inl⟩
              rw [hta, hvv]
          | false =>
            simp only [hA, Bool.false_eq_true, if_false] at h
            have hset_map : ∀ {β : Type} (f : ManagerState → β),
                f { s with is_active := true } = f s →
                ((sts.set i { s with is_active := true }).map f = sts.map f) := by
              intro β f hf
              rw [List.map_set, hf]
              apply list_set_same
              rw [List.get?_eq_getElem?, List.getElem?_map,
                ← List.get?_eq_getElem?, hG]
              rfl
            have hg1 : graphOf (sts.set i { s with is_active := true }) = g := by
              rw [graphOf, hset_map (fun t => (t.name, t.is_dead_for)) rfl]
              exact hg
            have hnd1 : ((sts.set i { s with is_active := true }).map
                (fun t => t.name)).Nodup := by
              rw [hset_map (fun t => t.name) rfl]
              exact hnd
            have hG1 : (sts.set i { s with is_active := true }).get? i =
                some { s with is_active := true } := by
              rw [List.get?_eq_getElem?]
              exact List.getElem?_set_eq_of_lt _ hlen
            obtain ⟨J1, J2, J3, J4, J5, J6⟩ :=
              bfs_step_invariants g root s visited rest _ _
                (adds_mem_iff g s visited _ hg1)
                (fun x => mem_foldl_addName _ rest)
                (foldl_addName_nodup _ rest hrest_nd) I1 I2 I3 I4 I5 I6
            obtain ⟨C1, C2, C3, C4⟩ :=
              ih _ _ _ _ _ h hg1 hnd1 J1 J2 J3 J4 J5 J6
            refine ⟨C1, C2, fun x hx => C3 x (mem_addName.mpr (Or.inl hx)), ?_⟩
            intro j t hj
            by_cases hji : j = i
            · rw [hji] at hj
              have hts : t = s := Option.some.inj (hj.symm.trans hG)
              subst hts
              obtain ⟨t2, ht2, htn, htd, htp, hta⟩ :=
                C4 i { t with is_active := true } hG1
              rw [hji]
              refine ⟨t2, ht2, by simpa using htn, by simpa using htd,
                by simpa using htp, ?_⟩
              have h2 : t2.is_active = true := by simpa using hta
              have hmemF : t.name ∈ out.2.1 :=
                C3 t.name (mem_addName.mpr (Or.inr rfl))
              have hnv : t.name ∉ visited := I6 t.name (List.mem_cons_self _ _)
              rw [h2, hA]
              simp [hmemF, hnv]
            · have hj1 : (sts.set i { s with is_active := true }).get? j =
                  some t := by
                rw [List.get?_eq_getElem?,
                  List.getElem?_set_ne (fun hh => hji hh.symm),
                  ← List.get?_eq_getElem?]
                exact hj
              obtain ⟨t2, ht2, htn, htd, htp, hta⟩ := C4 j t hj1
              refine ⟨t2, ht2, htn, htd, htp, ?_⟩
              have he : t.name ≠ s.name := fun he =>
                hji (name_index_inj hnd hj hG he)
              have hvv : decide (t.name ∈ addName s.name visited) =
                  decide (t.name ∈ visited) := by
                refine decide_eq_decide.mpr ?_
                rw [mem_addName]
                exact ⟨fun hh => hh.resolve_right he, Or.inl⟩
              rw [hta, hvv]

/-- The final pass keeps every field except `is_active`, which survives
exactly for visited names. -/
lemma deactivate_get? (visited : List String) :
    ∀ (sts : List ManagerState) (j : Nat) (t : ManagerState),
      sts.get? j = some t →
      ∃ t2, (deactivate visited sts).1.get? j = some t2 ∧
        t2.name = t.name ∧ t2.is_dead_for = t.is_dead_for ∧
        t2.is_primary = t.is_primary ∧
        t2.is_active = (t.is_active && decide (t.name ∈ visited)) := by
  intro sts
  induction sts with
  | nil => intro j t h; simp at h
  | cons s ss ih =>
    intro j t h
    cases j with
    | zero =>
      simp only [List.get?] at h
      obtain rfl : s = t := Option.some.inj h
      simp only [deactivate]
      split_ifs with h1 h2
      · exact ⟨s, rfl, rfl, rfl, rfl, by simp [h1]⟩
      · exact ⟨{ s with is_active := false }, rfl, rfl, rfl, rfl, by simp [h1]⟩
      · refine ⟨s, rfl, rfl, rfl, rfl, ?_⟩
        have hf : s.is_active = false := by
          cases hx : s.is_active with
          | false => rfl
          | true => exact absurd hx h2
        simp [hf]
    | succ m =>
      simp only [List.get?] at h
      obtain ⟨t2, ht2, htn, htd, htp, hta⟩ := ih m t h
      simp only [deactivate]
      split_ifs <;> exact ⟨t2, ht2, htn, htd, htp, hta⟩

/-- The elected index of `choosePrimary` carries `is_primary = true` in the
output states. -/
lemma choosePrimary_primary (env : Env) (sts : List ManagerState)
    (out : List ManagerState × Nat × Bool)
    (h : choosePrimary env sts = some out) :
    ∃ sp, out.1.get? out.2.1 = some sp ∧ sp.is_primary = true := by
  cases hld : leastDeadIdx env sts with
  | none =>
    simp only [choosePrimary, hld] at h
    exact Option.noConfusion h
  | some j =>
    obtain ⟨sj, hgj⟩ := leastDeadIdx_valid env sts j hld
    have hjlen : j < sts.length := (List.get?_eq_some.mp hgj).1
    cases hpi : primaryIdx sts with
    | none =>
      simp only [choosePrimary, hld, hpi] at h
      obtain rfl := Option.some.inj h
      refine ⟨{ sj with is_primary := true }, ?_, rfl⟩
      simp only [setPrimary, hgj]
      rw [List.get?_eq_getElem?]
      exact List.getElem?_set_eq_of_lt _ hjlen
    | some i =>
      cases hgi : sts.get? i with
      | none =>
        simp only [choosePrimary, hld, hpi, hgi] at h
        exact Option.noConfusion h
      | some si =>
        simp only [choosePrimary, hld, hpi, hgi, hgj] at h
        by_cases hcond : si.is_dead (quorum env) = true ∧
            sj.is_dead (quorum env) = false
        · rw [if_pos hcond] at h
          obtain rfl := Option.some.inj h
          have hij : i ≠ j := by
            intro hij
            rw [hij, hgj] at hgi
            obtain rfl := Option.some.inj hgi
            rw [hcond.2] at hcond
            exact Bool.false_ne_true hcond.1
          have hgj2 : (sts.set i { si with is_primary := false }).get? j =
              some sj := by
            rw [List.get?_eq_getElem?, List.getElem?_set_ne hij,
              ← List.get?_eq_getElem?]
            exact hgj
          have hjlen2 : j < (sts.set i { si with is_primary := false }).length :=
            (List.get?_eq_some.mp hgj2).1
          refine ⟨{ sj with is_primary := true }, ?_, rfl⟩
          simp only [setPrimary, hgi, hgj2]
          rw [List.get?_eq_getElem?]
          exact List.getElem?_set_eq_of_lt _ hjlen2
        · rw [if_neg hcond] at h
          obtain rfl := Option.some.inj h
          rcases primaryIdx_cases sts with ⟨hpn, _⟩ | ⟨i2, si2, hpi2, hgi2, hp2, _⟩
          · rw [hpn] at hpi
            exact Option.noConfusion hpi
          · rw [hpi2] at hpi
            obtain rfl : i2 = i := Option.some.inj hpi
            exact ⟨si2, hgi2, hp2⟩

/-- `choosePrimary` only rewrites `is_primary`. -/
lemma choosePrimary_map {β : Type} (f : ManagerState → β)
    (hf : ∀ s b, f { s with is_primary := b } = f s) (env : Env)
    (sts : List ManagerState) (out : List ManagerState × Nat × Bool)
    (h : choosePrimary env sts = some out) : out.1.map f = sts.map f := by
  cases hld : leastDeadIdx env sts with
  | none =>
    simp only [choosePrimary, hld] at h
    exact Option.noConfusion h
  | some j =>
    obtain ⟨sj, hgj⟩ := leastDeadIdx_valid env sts j hld
    cases hpi : primaryIdx sts with
    | none =>
      simp only [choosePrimary, hld, hpi] at h
      obtain rfl := Option.some.inj h
      exact setPrimary_map f hf sts j true
    | some i =>
      cases hgi : sts.get? i with
      | none =>
        simp only [choosePrimary, hld, hpi, hgi] at h
        exact Option.noConfusion h
      | some si =>
        simp only [choosePrimary, hld, hpi, hgi, hgj] at h
        by_cases hcond : si.is_dead (quorum env) = true ∧
            sj.is_dead (quorum env) = false
        · rw [if_pos hcond] at h
          obtain rfl := Option.some.inj h
          rw [setPrimary_map f hf _ j true, setPrimary_map f hf sts i false]
        · rw [if_neg hcond] at h
          obtain rfl := Option.some.inj h
          rfl

/-- Two distinct positions both satisfying `p` force a count of at least
two. -/
lemma countP_ge_two (p : ManagerState → Bool) :
    ∀ (l : List ManagerState) (i j : Nat) (a b : ManagerState), i < j →
      l.get? i = some a → l.get? j = some b → p a = true → p b = true →
      2 ≤ l.countP p := by
  intro l
  induction l with
  | nil => intro i j a b _ hi _ _ _; simp at hi
  | cons x xs ih =>
    intro i j a b hij hi hj hpa hpb
    cases i with
    | zero =>
      simp only [List.get?] at hi
      obtain rfl : x = a := Option.some.inj hi
      cases j with
      | zero => omega
      | succ m =>
        simp only [List.get?] at hj
        have hmem : b ∈ xs := List.get?_mem hj
        have hpos : 0 < xs.countP p :=
          List.countP_pos_iff.mpr ⟨b, hmem, hpb⟩
        rw [List.countP_cons]
        have h1 : (if p x = true then 1 else 0) = 1 := by simp [hpa]
        omega
    | succ m =>
      cases j with
      | zero => omega
      | succ m2 =>
        simp only [List.get?] at hi hj
        have := ih m m2 a b (by omega) hi hj hpa hpb
        rw [List.countP_cons]
        omega

/-- With exactly one primary, any two primary positions coincide. -/
lemma countP_one_unique {sts : List ManagerState}
    (hone : sts.countP (fun s => s.is_primary) = 1)
    {i j : Nat} {a b : ManagerState} (hi : sts.get? i = some a)
    (hj : sts.get? j = some b) (hpa : a.is_primary = true)
    (hpb : b.is_primary = true) : i = j ∧ a = b := by
  rcases Nat.lt_trichotomy i j with hlt | heq | hlt
  · have := countP_ge_two (fun s => s.is_primary) sts i j a b hlt hi hj hpa hpb
    omega
  · refine ⟨heq, ?_⟩
    rw [heq, hj] at hi
    exact (Option.some.inj hi).symm
  · have := countP_ge_two (fun s => s.is_primary) sts j i b a hlt hj hi hpb hpa
    omega

/-- C3: after `_remake_manager_states`, a manager state has
`is_active = true` iff its name is reachable from the primary in the graph
whose edge relation lets a reached manager `a` traverse into the manager
named `b` exactly when `b` is not dead-for `a` (the relation of the BFS on
lines 266-280); every state not reached this way ends inactive.  The input
plan must have distinct manager names and at most one primary. -/
theorem active_reachability_c3 (env : Env) (plan : Plan)
    (sts : List ManagerState) (ch : Bool)
    (hnd : ((statesPhaseA env plan).map (fun s => s.name)).Nodup)
    (hle : plan.manager_states.countP (fun s => s.is_primary) ≤ 1)
    (h : remake_manager_states env plan = some (sts, ch)) :
    ∀ p ∈ sts, p.is_primary = true →
      ∀ s ∈ sts, (s.is_active = true ↔ Reach (graphOf sts) p.name s.name) := by
  obtain ⟨hone, _⟩ := remake_manager_states_count env plan sts ch hle h
  rw [remake_manager_states] at h
  cases hmid : remakeStatesMid env plan with
  | none =>
    simp only [hmid] at h
    exact Option.noConfusion h
  | some mid =>
    obtain ⟨sts2, pidx, c0⟩ := mid
    simp only [hmid] at h
    cases hprim : sts2.get? pidx with
    | none =>
      simp only [hprim] at h
      exact Option.noConfusion h
    | some prim =>
      simp only [hprim] at h
      cases hbfs : bfs (sts2.length + 1) sts2 [] [prim.name] c0 with
      | none =>
        simp only [hbfs] at h
        exact Option.noConfusion h
      | some bout =>
        obtain ⟨sts3, visited, c1⟩ := bout
        simp only [hbfs] at h
        have hinj := Option.some.inj h
        have hsts : (deactivate visited sts3).1 = sts := congrArg Prod.fst hinj
        rw [remakeStatesMid] at hmid
        cases hcp : choosePrimary env
            (updDeadFor env env.config.managers (statesPhaseA env plan)).1 with
        | none =>
          simp only [hcp] at hmid
          exact Option.noConfusion hmid
        | some cpout =>
          obtain ⟨s2, p2, cE⟩ := cpout
          simp only [hcp] at hmid
          have hinj2 := Option.some.inj hmid
          have h2 : s2 = sts2 := congrArg Prod.fst hinj2
          have hp2 : p2 = pidx := congrArg (fun x => x.2.1) hinj2
          have hname2 : sts2.map (fun t => t.name) =
              (statesPhaseA env plan).map (fun t => t.name) := by
            rw [← h2,
              choosePrimary_map (fun t => t.name) (fun s b => rfl) env _ _ hcp,
              updDeadFor_map env (fun t => t.name) (fun s x => rfl)]
          have hnd2 : (sts2.map (fun t => t.name)).Nodup := by
            rw [hname2]
            exact hnd
          obtain ⟨C1, C2, C3, C4⟩ := bfs_spec (graphOf sts2) prim.name
            (sts2.length + 1) sts2 [] [prim.name] c0 (sts3, visited, c1) hbfs
            rfl hnd2
            (fun x hx => absurd hx (List.not_mem_nil _))
            (fun x hx => by
              rw [List.mem_singleton] at hx
              rw [hx]
              exact Reach.root)
            (fun a ha => absurd ha (List.not_mem_nil _))
            (Or.inr (List.mem_singleton_self _))
            (List.nodup_singleton _)
            (fun x _ => List.not_mem_nil x)
          obtain ⟨hm3, _⟩ := bfs_map (fun t => (t.name, t.is_dead_for))
            (fun s => rfl) (sts2.length + 1) sts2 [] [prim.name] c0
            (sts3, visited, c1) hbfs
          have hgfin : graphOf sts = graphOf sts2 := by
            rw [← hsts]
            show (deactivate visited sts3).1.map _ = _
            rw [deactivate_map (fun t => (t.name, t.is_dead_for)) (fun s => rfl)
              visited sts3]
            exact hm3
          obtain ⟨sp, hsp, hspp⟩ := choosePrimary_primary env _ (s2, p2, cE) hcp
          rw [h2, hp2] at hsp
          obtain rfl : sp = prim := Option.some.inj (hsp.symm.trans hprim)
          obtain ⟨t2, ht2, ht2n, _, ht2p, _⟩ := C4 pidx sp hprim
          obtain ⟨t3, ht3, ht3n, _, ht3p, _⟩ :=
            deactivate_get? visited sts3 pidx t2 ht2
          rw [hsts] at ht3
          have ht3prim : t3.is_primary = true := by rw [ht3p, ht2p]; exact hspp
          have ht3name : t3.name = sp.name := by rw [ht3n, ht2n]
          have hlen23 : sts.length = sts2.length := by
            have hh := congrArg List.length hgfin
            simpa [graphOf] using hh
          intro p hp hprimp s hs
          obtain ⟨jp, hjp⟩ := List.mem_iff_get?.mp hp
          obtain ⟨_, hpt3⟩ := countP_one_unique hone hjp ht3 hprimp ht3prim
          obtain ⟨js, hjs⟩ := List.mem_iff_get?.mp hs
          have hjs_lt : js < sts2.length := by
            rw [← hlen23]
            exact (List.get?_eq_some.mp hjs).1
          obtain ⟨t, ht⟩ : ∃ t, sts2.get? js = some t := by
            cases hx : sts2.get? js with
            | some t => exact ⟨t, rfl⟩
            | none =>
              rw [List.get?_eq_none] at hx
              omega
          obtain ⟨u2, hu2, hu2n, _, _, hu2a⟩ := C4 js t ht
          obtain ⟨u3, hu3, hu3n, _, _, hu3a⟩ :=
            deactivate_get? visited sts3 js u2 hu2
          rw [hsts] at hu3
          obtain rfl : u3 = s := Option.some.inj (hu3.symm.trans hjs)
          have hact : u3.is_active = decide (t.name ∈ visited) := by
            rw [hu3a, hu2a, hu2n]
            cases hdm : decide (t.name ∈ visited) <;> simp [hdm]
          have hnames : u3.name = t.name := by rw [hu3n, hu2n]
          rw [hgfin, hpt3, ht3name, hnames, hact]
          constructor
          · intro hd
            exact C1 t.name (by simpa using hd)
          · intro hr
            simpa using C2 t.name hr

/-- Witness for C3 at a concrete input: in the single-manager run the one
state is active and indeed reachable from the primary (itself). -/
theorem active_reachability_c3_witness :
    (({ name := "m1", is_primary := true, is_dead_for := ∅,
        is_active := true } : ManagerState).is_active = true)
    ↔ Reach (graphOf [{ name := "m1", is_primary := true,
                        is_dead_for := ∅, is_active := true }]) "m1" "m1" :=
  active_reachability_c3 c1env {}
    [{ name := "m1", is_primary := true, is_dead_for := ∅, is_active := true }]
    true (by decide) (by decide) (by decide)
    { name := "m1", is_primary := true, is_dead_for := ∅, is_active := true }
    (List.mem_singleton_self _) rfl
    { name := "m1", is_primary := true, is_dead_for := ∅, is_active := true }
    (List.mem_singleton_self _)

/-- Witness for C5 at a concrete input: reconciling the empty plan under
the C1 environment yields exactly one primary state. -/
theorem single_primary_c5_witness :
    ({ version := 1,
       vms := [Vm.worker { service := "time", manager := "m1",
                           address := 167772162, port := 8080, token := 0 },
               Vm.worker { service := "time", manager := "m1",
                           address := 167772163, port := 8080, token := 1 }],
       manager_states := [{ name := "m1", is_primary := true,
                            is_dead_for := ∅, is_active := true }] } :
      Plan).manager_states.countP (fun s => s.is_primary) = 1 :=
  single_primary_c5 c1env {} _ (by decide) rfl (by decide)


/-- `generate_one_not_in` returns an address outside the avoid list and
inside the range. -/
lemma generate_not_mem {r : IPv4Range} {ips : List Nat} {ip : Nat}
    (h : r.generate_one_not_in ips = some ip) : ip ∉ ips ∧ ip ∈ r.rangeList := by
  unfold IPv4Range.generate_one_not_in at h
  refine ⟨?_, List.mem_of_find?_eq_some h⟩
  have hp := List.find?_some h
  simpa using hp

/-- `workers_for_service` is `workersIn` on the plan's vm list. -/
lemma wfs_eq (p : Plan) (n : String) :
    p.workers_for_service n = workersIn p.vms n := rfl

lemma workersIn_append (a b : List Vm) (n : String) :
    workersIn (a ++ b) n = workersIn a n ++ workersIn b n := by
  simp [workersIn, List.filterMap_append]

lemma vmWA_append (a b : List Vm) :
    vmWA (a ++ b) = vmWA a ++ vmWA b := by
  simp [vmWA, List.filterMap_append]

lemma vmWA_workers (ws : List Worker) :
    vmWA (ws.map Vm.worker) = ws.map (fun w => w.address) := by
  induction ws with
  | nil => rfl
  | cons w t ih => simpa [vmWA, List.filterMap_cons] using ih

lemma vmWA_lbs (ls : List LoadBalancer) :
    vmWA (ls.map Vm.lb) = [] := by
  induction ls with
  | nil => rfl
  | cons l t ih => simpa [vmWA, List.filterMap_cons] using ih

lemma workersIn_workers (ws : List Worker) (n : String)
    (h : ∀ w ∈ ws, w.service = n) :
    workersIn (ws.map Vm.worker) n = ws := by
  induction ws with
  | nil => rfl
  | cons w t ih =>
    have hw : w.service = n := h w (List.mem_cons_self w t)
    have iht := ih (fun x hx => h x (List.mem_cons_of_mem _ hx))
    simpa [workersIn, List.filterMap_cons, hw] using iht

lemma workersIn_workers_ne (ws : List Worker) (n : String)
    (h : ∀ w ∈ ws, w.service ≠ n) :
    workersIn (ws.map Vm.worker) n = [] := by
  induction ws with
  | nil => rfl
  | cons w t ih =>
    have hw : ¬(w.service = n) := h w (List.mem_cons_self w t)
    have iht := ih (fun x hx => h x (List.mem_cons_of_mem _ hx))
    simpa [workersIn, List.filterMap_cons, hw] using iht

lemma workersIn_lbs (ls : List LoadBalancer) (n : String) :
    workersIn (ls.map Vm.lb) n = [] := by
  induction ls with
  | nil => rfl
  | cons l t ih => simpa [workersIn, List.filterMap_cons] using ih

lemma workersIn_nil_of (vms : List Vm) (n : String)
    (h : ∀ vm ∈ vms, Vm.service vm ≠ n) : workersIn vms n = [] := by
  induction vms with
  | nil => rfl
  | cons vm t ih =>
    have iht := ih (fun x hx => h x (List.mem_cons_of_mem _ hx))
    cases vm with
    | worker w =>
      have hw : ¬(w.service = n) := h (Vm.worker w) (List.mem_cons_self _ _)
      simpa [workersIn, List.filterMap_cons, hw] using iht
    | lb l =>
      simpa [workersIn, List.filterMap_cons] using iht

lemma mem_workersIn {vms : List Vm} {n : String} {w : Worker} :
    w ∈ workersIn vms n ↔ Vm.worker w ∈ vms ∧ w.service = n := by
  unfold workersIn
  rw [List.mem_filterMap]
  constructor
  · rintro ⟨vm, hvm, heq⟩
    cases vm with
    | worker w2 =>
      by_cases hs : w2.service = n
      · simp only [beq_iff_eq, hs, if_true, Option.some.injEq] at heq
        subst heq
        exact ⟨hvm, hs⟩
      · simp [hs] at heq
    | lb l => simp at heq
  · rintro ⟨hmem, hs⟩
    exact ⟨Vm.worker w, hmem, by simp [hs]⟩

lemma vmWA_sublist (vms : List Vm) :
    List.Sublist (vmWA vms) (vms.map Vm.address) := by
  induction vms with
  | nil => simp [vmWA]
  | cons vm t ih =>
    cases vm with
    | worker w =>
      simp only [vmWA, List.filterMap_cons, List.map_cons]
      rw [← vmWA]
      exact ih.cons₂ (Vm.address (Vm.worker w))
    | lb l =>
      simp only [vmWA, List.filterMap_cons, List.map_cons]
      rw [← vmWA]
      exact ih.cons (Vm.address (Vm.lb l))

lemma workersIn_addr_sublist (vms : List Vm) (n : String) :
    List.Sublist ((workersIn vms n).map (fun w => w.address))
      (vms.map Vm.address) := by
  induction vms with
  | nil => simp [workersIn]
  | cons vm t ih =>
    cases vm with
    | worker w =>
      cases hs : (w.service == n) with
      | true =>
        simp only [workersIn, List.filterMap_cons, hs, if_true, List.map_cons]
        rw [← workersIn]
        exact ih.cons₂ (Vm.address (Vm.worker w))
      | false =>
        simp only [workersIn, List.filterMap_cons, hs, Bool.false_eq_true,
          if_false, List.map_cons]
        rw [← workersIn]
        exact ih.cons (Vm.address (Vm.worker w))
    | lb l =>
      simp only [workersIn, List.filterMap_cons, List.map_cons]
      rw [← workersIn]
      exact ih.cons (Vm.address (Vm.lb l))

lemma planWA_cons (plan : Plan) (n : String) (ns : List String) :
    planWA plan (n :: ns)
      = (plan.workers_for_service n).map (fun w => w.address) ++ planWA plan ns := by
  simp [planWA]

lemma mem_planWA {plan : Plan} {ns : List String} {a : Nat} :
    a ∈ planWA plan ns
      ↔ ∃ n ∈ ns, a ∈ (plan.workers_for_service n).map (fun w => w.address) := by
  simp [planWA, List.mem_flatten]

/-- Nodup is preserved when the first two blocks of a three-block append are
swapped. -/
lemma nodup_rotate {α : Type} {a b c : List α} (h : (a ++ (b ++ c)).Nodup) :
    (b ++ (a ++ c)).Nodup := by
  have h1 : (a ++ (b ++ c)) = ((a ++ b) ++ c) := (List.append_assoc a b c).symm
  have h2 : List.Perm ((a ++ b) ++ c) ((b ++ a) ++ c) :=
    List.perm_append_comm.append_right c
  have h3 : ((b ++ a) ++ c) = (b ++ (a ++ c)) := List.append_assoc b a c
  rw [← h3]
  exact h2.nodup (h1 ▸ h)

/-- Distinct worker addresses of a plan split by (distinct) service names. -/
lemma planWA_nodup (plan : Plan) (names : List String) (hnd : names.Nodup)
    (hvm : (plan.vms.map Vm.address).Nodup) : (planWA plan names).Nodup := by
  induction names with
  | nil => simp [planWA]
  | cons n ns ih =>
    rw [planWA_cons]
    obtain ⟨hn, hns⟩ := List.nodup_cons.mp hnd
    have h1 : ((plan.workers_for_service n).map (fun w => w.address)).Nodup := by
      rw [wfs_eq]
      exact hvm.sublist (workersIn_addr_sublist plan.vms n)
    rw [List.nodup_append]
    refine ⟨h1, ih hns, ?_⟩
    intro a ha hb
    rw [wfs_eq] at ha
    obtain ⟨w1, hw1, hw1a⟩ := List.mem_map.mp ha
    obtain ⟨m, hm, hma⟩ := mem_planWA.mp hb
    rw [wfs_eq] at hma
    obtain ⟨w2, hw2, hw2a⟩ := List.mem_map.mp hma
    obtain ⟨hw1m, hw1s⟩ := mem_workersIn.mp hw1
    obtain ⟨hw2m, hw2s⟩ := mem_workersIn.mp hw2
    have haddr : Vm.address (Vm.worker w1) = Vm.address (Vm.worker w2) := by
      show w1.address = w2.address
      rw [hw1a, hw2a]
    have hinj := List.inj_on_of_nodup_map hvm hw1m hw2m haddr
    have hww : w1 = w2 := by injection hinj
    apply hn
    rw [← hw1s, hww, hw2s]
    exact hm

/-- `removeWorkers` only removes workers. -/
lemma removeWorkers_sublist (env : Env) :
    ∀ (cnt : Nat) (ws ws2 : List Worker),
      removeWorkers env cnt ws = some ws2 → List.Sublist ws2 ws := by
  intro cnt
  induction cnt with
  | zero =>
    intro ws ws2 h
    simp only [removeWorkers, Option.some.injEq] at h
    subst h
    exact List.Sublist.refl _
  | succ c ih =>
    intro ws ws2 h
    simp only [removeWorkers] at h
    cases hp : env.pickVm ws with
    | none => simp only [hp] at h; exact Option.noConfusion h
    | some w =>
      simp only [hp] at h
      exact (ih _ _ h).trans (List.erase_sublist w ws)

/-- Every worker `allocWorkers` appends carries the service name. -/
lemma allocWorkers_service (env : Env) (s : ServiceConfig) (plan : Plan)
    (nv : List Vm) (active : List ManagerConfig) :
    ∀ (cnt : Nat) (ws : List Worker) (k : Nat) (ws1 : List Worker) (k1 : Nat),
      allocWorkers env s plan nv active cnt ws k = some (ws1, k1) →
      (∀ w ∈ ws, w.service = s.name) → ∀ w ∈ ws1, w.service = s.name := by
  intro cnt
  induction cnt with
  | zero =>
    intro ws k ws1 k1 h hws
    simp only [allocWorkers, Option.some.injEq, Prod.mk.injEq] at h
    obtain ⟨rfl, rfl⟩ := h
    exact hws
  | succ c ih =>
    intro ws k ws1 k1 h hws
    simp only [allocWorkers] at h
    cases hpk : env.pickMgr active with
    | none => simp only [hpk] at h; exact Option.noConfusion h
    | some mgr =>
      simp only [hpk] at h
      cases hip : mgr.address_pool.generate_one_not_in
          (ws.map (fun w => w.address) ++ nv.map Vm.address
            ++ plan.vms.map Vm.address) with
      | none => simp only [hip] at h; exact Option.noConfusion h
      | some ip =>
        simp only [hip] at h
        refine ih _ _ _ _ h ?_
        intro w hw
        rcases List.mem_append.mp hw with hw | hw
        · exact hws w hw
        · obtain rfl := List.mem_singleton.mp hw
          rfl

/-- `allocWorkers` preserves distinctness of worker addresses together with
any list of addresses drawn from `new_vms` and the current plan, because
each fresh address avoids all three. -/
lemma allocWorkers_nodup (env : Env) (s : ServiceConfig) (plan : Plan)
    (nv : List Vm) (active : List ManagerConfig) (X : List Nat)
    (hX : ∀ a ∈ X, a ∈ nv.map Vm.address ∨ a ∈ plan.vms.map Vm.address) :
    ∀ (cnt : Nat) (ws : List Worker) (k : Nat) (ws1 : List Worker) (k1 : Nat),
      allocWorkers env s plan nv active cnt ws k = some (ws1, k1) →
      (ws.map (fun w => w.address) ++ X).Nodup →
      (ws1.map (fun w => w.address) ++ X).Nodup := by
  intro cnt
  induction cnt with
  | zero =>
    intro ws k ws1 k1 h hN
    simp only [allocWorkers, Option.some.injEq, Prod.mk.injEq] at h
    obtain ⟨rfl, rfl⟩ := h
    exact hN
  | succ c ih =>
    intro ws k ws1 k1 h hN
    simp only [allocWorkers] at h
    cases hpk : env.pickMgr active with
    | none => simp only [hpk] at h; exact Option.noConfusion h
    | some mgr =>
      simp only [hpk] at h
      cases hip : mgr.address_pool.generate_one_not_in
          (ws.map (fun w => w.address) ++ nv.map Vm.address
            ++ plan.vms.map Vm.address) with
      | none => simp only [hip] at h; exact Option.noConfusion h
      | some ip =>
        simp only [hip] at h
        refine ih _ _ _ _ h ?_
        have hipn := (generate_not_mem hip).1
        have h1 : ip ∉ ws.map (fun w => w.address) := fun hc => hipn (by simp [hc])
        have h2 : ip ∉ X := by
          intro hc
          rcases hX ip hc with hc2 | hc2
          · exact hipn (by simp [hc2])
          · exact hipn (by simp [hc2])
        have hcons : ip ∉ ws.map (fun w => w.address) ++ X := by
          intro hc
          rcases List.mem_append.mp hc with hc | hc
          · exact h1 hc
          · exact h2 hc
        have hperm : List.Perm (ws.map (fun w => w.address) ++ ip :: X)
            (ip :: (ws.map (fun w => w.address) ++ X)) := List.perm_middle
        have hN3 : (ws.map (fun w => w.address) ++ ip :: X).Nodup :=
          hperm.symm.nodup (List.nodup_cons.mpr ⟨hcons, hN⟩)
        simpa using hN3

/-- Every worker returned by `_remake_service_workers` carries the service
name: kept workers come from `workers_for_service`, new ones are built with
it. -/
lemma remake_service_workers_service {env : Env} {s : ServiceConfig}
    {plan : Plan} {nv : List Vm} {active : List ManagerConfig} {k : Nat}
    {ws : List Worker} {cW : Bool} {k1 : Nat}
    (h : remake_service_workers env s plan nv active k = some (ws, cW, k1)) :
    ∀ w ∈ ws, w.service = s.name := by
  simp only [remake_service_workers] at h
  split at h
  · exact Option.noConfusion h
  · rename_i ws1 k1v halloc
    split at h
    · exact Option.noConfusion h
    · rename_i ws2 hrem
      simp only [Option.some.injEq, Prod.mk.injEq] at h
      obtain ⟨rfl, -, rfl⟩ := h
      have hbase : ∀ w ∈ (plan.workers_for_service s.name).filter
          (fun w => ((active.map (fun m => m.name)).contains w.manager)),
          w.service = s.name := by
        intro w hw
        have hmem := List.mem_of_mem_filter hw
        rw [wfs_eq] at hmem
        exact (mem_workersIn.mp hmem).2
      have hall := allocWorkers_service env s plan nv active _ _ _ _ _ halloc hbase
      intro w hw
      exact hall w ((removeWorkers_sublist env _ _ _ hrem).subset hw)

/-- `_remake_service_workers` preserves distinctness of worker addresses
relative to an ambient address list drawn from `new_vms` and the plan. -/
lemma remake_service_workers_nodup {env : Env} {s : ServiceConfig}
    {plan : Plan} {nv : List Vm} {active : List ManagerConfig} {k : Nat}
    {ws : List Worker} {cW : Bool} {k1 : Nat} (X : List Nat)
    (hX : ∀ a ∈ X, a ∈ nv.map Vm.address ∨ a ∈ plan.vms.map Vm.address)
    (h : remake_service_workers env s plan nv active k = some (ws, cW, k1))
    (hN : ((plan.workers_for_service s.name).map (fun w => w.address) ++ X).Nodup) :
    (ws.map (fun w => w.address) ++ X).Nodup := by
  simp only [remake_service_workers] at h
  split at h
  · exact Option.noConfusion h
  · rename_i ws1 k1v halloc
    split at h
    · exact Option.noConfusion h
    · rename_i ws2 hrem
      simp only [Option.some.injEq, Prod.mk.injEq] at h
      obtain ⟨rfl, -, rfl⟩ := h
      have hN0 : (((plan.workers_for_service s.name).filter
          (fun w => ((active.map (fun m => m.name)).contains w.manager))).map
            (fun w => w.address) ++ X).Nodup :=
        hN.sublist ((List.Sublist.map (fun (w : Worker) => w.address)
          (List.filter_sublist _)).append_right X)
      have hN1 := allocWorkers_nodup env s plan nv active X hX _ _ _ _ _ halloc hN0
      exact hN1.sublist
        (((removeWorkers_sublist env _ _ _ hrem).map (fun w => w.address)).append_right X)

/-- The service loop of `_remake_plan` keeps worker addresses distinct:
starting from distinct accumulated worker addresses and per-service plan
worker addresses, the final vm list has distinct worker addresses. -/
lemma remake_services_addr_nodup (env : Env) (plan : Plan)
    (active : List ManagerConfig) :
    ∀ (rem : List ServiceConfig) (acc : List Vm) (ch : Bool) (k : Nat)
      (out : List Vm × Bool),
      remake_services env plan active rem acc ch k = some out →
      (vmWA acc ++ planWA plan (rem.map (fun s => s.name))).Nodup →
      (vmWA out.1).Nodup := by
  intro rem
  induction rem with
  | nil =>
    intro acc ch k out h hN
    simp only [remake_services] at h
    obtain rfl := Option.some.inj h
    simpa [planWA] using hN
  | cons s rest ih =>
    intro acc ch k out h hN
    simp only [remake_services] at h
    cases hw : remake_service_workers env s plan acc active k with
    | none => simp only [hw] at h; exact Option.noConfusion h
    | some w =>
      obtain ⟨ws, cW, k1⟩ := w
      simp only [hw] at h
      cases hl : remake_service_lb env s
          (lbFor env.config.load_balancers s.name) plan ws active k1 with
      | none => simp only [hl] at h; exact Option.noConfusion h
      | some lb =>
        obtain ⟨lbs, cL, k2⟩ := lb
        simp only [hl] at h
        have hN1 : ((plan.workers_for_service s.name).map (fun w => w.address)
            ++ (vmWA acc ++ planWA plan (rest.map (fun s => s.name)))).Nodup := by
          apply nodup_rotate
          rw [List.map_cons, planWA_cons] at hN
          exact hN
        have hX : ∀ a ∈ vmWA acc ++ planWA plan (rest.map (fun s => s.name)),
            a ∈ acc.map Vm.address ∨ a ∈ plan.vms.map Vm.address := by
          intro a ha
          rcases List.mem_append.mp ha with ha | ha
          · exact Or.inl ((vmWA_sublist acc).subset ha)
          · right
            obtain ⟨n, hn, ha2⟩ := mem_planWA.mp ha
            rw [wfs_eq] at ha2
            exact (workersIn_addr_sublist plan.vms n).subset ha2
        have hN2 := remake_service_workers_nodup
          (vmWA acc ++ planWA plan (rest.map (fun s => s.name))) hX hw hN1
        have haccWA : vmWA (acc ++ ws.map Vm.worker ++ lbs.map Vm.lb)
            = vmWA acc ++ ws.map (fun w => w.address) := by
          rw [vmWA_append, vmWA_append, vmWA_workers, vmWA_lbs, List.append_nil]
        have hN3 : (vmWA (acc ++ ws.map Vm.worker ++ lbs.map Vm.lb)
            ++ planWA plan (rest.map (fun s => s.name))).Nodup := by
          rw [haccWA, List.append_assoc]
          exact nodup_rotate hN2
        exact ih _ _ _ _ h hN3

/-- C6 (amended): from a plan whose vm addresses are all distinct and a
config with distinct service names, every plan `_remake_plan` produces has
pairwise distinct *worker* addresses, and every fresh allocation of
`generate_one_not_in` avoids the supplied address set (kept workers,
previously built new vms and the whole current plan) while staying inside
the pool range.  (The original claim, distinctness across workers *and*
load balancers, is refuted by `address_uniqueness_c6_cex`: a configured LB
address may collide with an allocated worker address.) -/
theorem address_uniqueness_c6 (env : Env) (plan p : Plan)
    (hvm : (plan.vms.map Vm.address).Nodup)
    (hsn : ((env.config.services).map (fun s => s.name)).Nodup)
    (hself : env.self_plan = plan)
    (h : remake_plan env plan = some p) :
    (vmWA p.vms).Nodup ∧
      ∀ (r : IPv4Range) (forb : List Nat) (ip : Nat),
        r.generate_one_not_in forb = some ip → ip ∉ forb ∧ ip ∈ r.rangeList := by
  refine ⟨?_, fun r forb ip hgen => generate_not_mem hgen⟩
  simp only [remake_plan] at h
  cases hc : remake_plan_core env plan with
  | none => simp only [hc] at h; exact Option.noConfusion h
  | some x =>
    obtain ⟨vms, sts, changed⟩ := x
    simp only [hc] at h
    obtain rfl := Option.some.inj h
    cases changed with
    | false =>
      simp only [Bool.false_eq_true, if_false, hself]
      exact hvm.sublist (vmWA_sublist plan.vms)
    | true =>
      simp only [if_true]
      simp only [remake_plan_core] at hc
      cases hm : remake_manager_states env plan with
      | none => simp only [hm] at hc; exact Option.noConfusion hc
      | some y =>
        obtain ⟨sts2, cM⟩ := y
        simp only [hm] at hc
        cases hs : remake_services env plan
            ((env.config.managers.zip sts2).filterMap
              (fun p => if p.2.is_active then some p.1 else none))
            env.config.services [] cM 0 with
        | none => simp only [hs] at hc; exact Option.noConfusion hc
        | some z =>
          obtain ⟨zv, zc⟩ := z
          simp only [hs, Option.some.injEq, Prod.mk.injEq] at hc
          obtain ⟨rfl, rfl, rfl⟩ := hc
          have hinit : (vmWA ([] : List Vm)
              ++ planWA plan ((env.config.services).map (fun s => s.name))).Nodup := by
            have := planWA_nodup plan ((env.config.services).map (fun s => s.name))
              hsn hvm
            simpa [vmWA] using this
          exact remake_services_addr_nodup env plan _ env.config.services [] cM 0
            _ hs hinit

/-- Witness for the amended C6 at the single-manager scenario: the plan
built from the empty plan has distinct worker addresses, and the allocation
that produced `10.0.0.3` avoided the already-used `10.0.0.2`. -/
theorem address_uniqueness_c6_witness :
    (vmWA c6out.vms).Nodup ∧
      (167772163 ∉ ([167772162] : List Nat)
        ∧ 167772163 ∈ c1m.address_pool.rangeList) := by
  have h := address_uniqueness_c6 c1env {} c6out (by decide) (by decide) rfl
    (by decide)
  exact ⟨h.1, h.2 c1m.address_pool [167772162] 167772163 (by decide)⟩

/-- The `lb_map` of `service_lb_pairs` only yields configs of the looked-up
service. -/
lemma lbFor_service {lbs : List LBConfig} {n : String} {cfg : LBConfig}
    (h : lbFor lbs n = some cfg) : cfg.service = n := by
  simp only [lbFor] at h
  have hmem := List.mem_of_mem_getLast? h
  have hf := List.mem_filter.mp hmem
  simpa using hf.2

/-- `lb_for_service` only yields LBs of the looked-up service. -/
lemma lb_for_service_service {plan : Plan} {n : String} {l : LoadBalancer}
    (h : plan.lb_for_service n = some l) : l.service = n := by
  simp only [Plan.lb_for_service] at h
  split at h
  · rename_i x hx
    obtain rfl := Option.some.inj h
    have hmem : x ∈ plan.vms.filterMap (fun vm =>
        match vm with
        | .lb l2 => if l2.service == n then some l2 else none
        | .worker _ => none) := by
      rw [hx]
      exact List.mem_singleton_self x
    obtain ⟨vm, hvm, hf⟩ := List.mem_filterMap.mp hmem
    cases vm with
    | worker w => simp at hf
    | lb l2 =>
      by_cases hsv : l2.service = n
      · simp only [beq_iff_eq, hsv, if_true, Option.some.injEq] at hf
        subst hf
        exact hsv
      · simp [hsv] at hf
  · exact Option.noConfusion h

/-- `_remake_service_lb`: every load balancer it returns has the computed
upstream (exactly the given workers' `(address, port)` pairs) and the
service's name; and when an LB is configured, the result is nonempty. -/
lemma remake_service_lb_spec {env : Env} {s : ServiceConfig}
    {cfgOpt : Option LBConfig} {plan : Plan} {ws : List Worker}
    {active : List ManagerConfig} {k : Nat}
    {lbs : List LoadBalancer} {cL : Bool} {k2 : Nat}
    (h : remake_service_lb env s cfgOpt plan ws active k = some (lbs, cL, k2))
    (hc : ∀ cfg, cfgOpt = some cfg → cfg.service = s.name) :
    (∀ l ∈ lbs, l.upstream = ws.map (fun w => (w.address, w.port))
      ∧ l.service = s.name)
    ∧ (cfgOpt.isSome = true → lbs ≠ []) := by
  cases cfgOpt with
  | none =>
    simp only [remake_service_lb, Option.some.injEq, Prod.mk.injEq] at h
    obtain ⟨rfl, -, -⟩ := h
    exact ⟨by simp, by simp⟩
  | some cfg =>
    have hcs : cfg.service = s.name := hc cfg rfl
    simp only [remake_service_lb] at h
    cases hlbv : plan.lb_for_service s.name with
    | none =>
      simp only [hlbv] at h
      cases hpk : env.pickMgr active with
      | none => simp only [hpk] at h; exact Option.noConfusion h
      | some mgr =>
        simp only [hpk, Option.some.injEq, Prod.mk.injEq] at h
        obtain ⟨rfl, -, -⟩ := h
        refine ⟨?_, fun _ => by simp⟩
        intro l hl
        obtain rfl := List.mem_singleton.mp hl
        exact ⟨rfl, hcs⟩
    | some lbv =>
      have hlsv : lbv.service = s.name := lb_for_service_service hlbv
      simp only [hlbv] at h
      split at h
      · exact Option.noConfusion h
      · rename_i mgr hmgr
        split at h
        · simp only [Option.some.injEq, Prod.mk.injEq] at h
          obtain ⟨rfl, -, -⟩ := h
          refine ⟨?_, fun _ => by simp⟩
          intro l hl
          obtain rfl := List.mem_singleton.mp hl
          exact ⟨rfl, hlsv⟩
        · rename_i hcond
          simp only [Option.some.injEq, Prod.mk.injEq] at h
          obtain ⟨rfl, -, -⟩ := h
          refine ⟨?_, fun _ => by simp⟩
          intro l hl
          obtain rfl := List.mem_singleton.mp hl
          refine ⟨?_, hlsv⟩
          simp only [not_or] at hcond
          exact (not_ne_iff.mp hcond.1).symm

/-- The service loop of `_remake_plan` establishes LB upstream consistency:
on entry no accumulated vm belongs to a pending service and every
accumulated LB already agrees with the accumulated workers of its service;
on exit the accumulator is preserved, every LB agrees with the final
workers of its service, and every pending service with a configured LB has
an LB entry. -/
lemma remake_services_lb_inv (env : Env) (plan : Plan)
    (active : List ManagerConfig) :
    ∀ (rem : List ServiceConfig) (acc : List Vm) (ch : Bool) (k : Nat)
      (out : List Vm × Bool),
      remake_services env plan active rem acc ch k = some out →
      (rem.map (fun s => s.name)).Nodup →
      (∀ vm ∈ acc, Vm.service vm ∉ rem.map (fun s => s.name)) →
      (∀ l, Vm.lb l ∈ acc →
        l.upstream = (workersIn acc l.service).map (fun w => (w.address, w.port))) →
      ((∀ vm ∈ acc, vm ∈ out.1)
        ∧ (∀ l, Vm.lb l ∈ out.1 →
            l.upstream = (workersIn out.1 l.service).map (fun w => (w.address, w.port)))
        ∧ (∀ s ∈ rem, (lbFor env.config.load_balancers s.name).isSome = true →
            ∃ l, Vm.lb l ∈ out.1 ∧ l.service = s.name)) := by
  intro rem
  induction rem with
  | nil =>
    intro acc ch k out h hnd hsvc hinv
    simp only [remake_services] at h
    obtain rfl := Option.some.inj h
    exact ⟨fun vm hv => hv, hinv, by simp⟩
  | cons s rest ih =>
    intro acc ch k out h hnd hsvc hinv
    simp only [List.map_cons] at hnd hsvc
    obtain ⟨hsni, hnd2⟩ := List.nodup_cons.mp hnd
    simp only [remake_services] at h
    cases hw : remake_service_workers env s plan acc active k with
    | none => simp only [hw] at h; exact Option.noConfusion h
    | some w =>
      obtain ⟨ws, cW, k1⟩ := w
      simp only [hw] at h
      cases hl : remake_service_lb env s
          (lbFor env.config.load_balancers s.name) plan ws active k1 with
      | none => simp only [hl] at h; exact Option.noConfusion h
      | some lb =>
        obtain ⟨lbs, cL, k2⟩ := lb
        simp only [hl] at h
        have hwsvc : ∀ w2 ∈ ws, w2.service = s.name :=
          remake_service_workers_service hw
        have hlb := remake_service_lb_spec hl (fun cfg hcfg => lbFor_service hcfg)
        have hsvc2 : ∀ vm ∈ acc ++ ws.map Vm.worker ++ lbs.map Vm.lb,
            Vm.service vm ∉ rest.map (fun s => s.name) := by
          intro vm hv
          rcases List.mem_append.mp hv with hv | hv
          · rcases List.mem_append.mp hv with hv | hv
            · intro hcm
              exact hsvc vm hv (List.mem_cons_of_mem _ hcm)
            · obtain ⟨w2, hw2, rfl⟩ := List.mem_map.mp hv
              show w2.service ∉ _
              rw [hwsvc w2 hw2]
              exact hsni
          · obtain ⟨l2, hl2, rfl⟩ := List.mem_map.mp hv
            show l2.service ∉ _
            rw [(hlb.1 l2 hl2).2]
            exact hsni
        have hinv2 : ∀ l, Vm.lb l ∈ acc ++ ws.map Vm.worker ++ lbs.map Vm.lb →
            l.upstream = (workersIn (acc ++ ws.map Vm.worker ++ lbs.map Vm.lb)
              l.service).map (fun w => (w.address, w.port)) := by
          intro l hli
          have hsplit : workersIn (acc ++ ws.map Vm.worker ++ lbs.map Vm.lb) l.service
              = workersIn acc l.service ++ workersIn (ws.map Vm.worker) l.service
                ++ workersIn (lbs.map Vm.lb) l.service := by
            rw [workersIn_append, workersIn_append]
          rcases List.mem_append.mp hli with hli | hli
          · rcases List.mem_append.mp hli with hli | hli
            · have hlserv : l.service ≠ s.name := by
                intro hcm
                refine hsvc (Vm.lb l) hli ?_
                show l.service ∈ _
                rw [hcm]
                exact List.mem_cons_self _ _
              rw [hsplit, workersIn_lbs,
                workersIn_workers_ne ws l.service
                  (fun w2 hw2 hcm => hlserv (hcm.symm.trans (hwsvc w2 hw2)))]
              simp only [List.append_nil]
              exact hinv l hli
            · obtain ⟨w2, hw2, hEq⟩ := List.mem_map.mp hli
              exact Vm.noConfusion hEq
          · obtain ⟨l2, hl2, hEq⟩ := List.mem_map.mp hli
            obtain rfl : l2 = l := by injection hEq
            have hup := (hlb.1 l2 hl2).1
            have hls := (hlb.1 l2 hl2).2
            rw [hsplit, hls,
              workersIn_nil_of acc s.name (fun vm hv hcm => hsvc vm hv
                (by rw [← hcm]; exact List.mem_cons_self _ _)),
              workersIn_workers ws s.name hwsvc, workersIn_lbs]
            simp only [List.nil_append, List.append_nil]
            exact hup
        obtain ⟨hmono, hINV, hEX⟩ := ih _ _ _ _ h hnd2 hsvc2 hinv2
        refine ⟨?_, hINV, ?_⟩
        · intro vm hv
          exact hmono vm (List.mem_append.mpr (Or.inl (List.mem_append.mpr (Or.inl hv))))
        · intro s2 hs2 hiso
          rcases List.mem_cons.mp hs2 with rfl | hs2
          · have hne := hlb.2 hiso
            obtain ⟨l0, hl0⟩ := List.exists_mem_of_ne_nil _ hne
            refine ⟨l0, hmono _ ?_, (hlb.1 l0 hl0).2⟩
            exact List.mem_append.mpr (Or.inr (List.mem_map.mpr ⟨l0, hl0, rfl⟩))
          · exact hEX s2 hs2 hiso

/-- C7 counterexample: when nothing changed, `_remake_plan` returns
`self._plan` unmodified, and that plan can violate LB upstream consistency.
Here `c7plan` holds a stray worker of service `S` on the unknown manager
`mX`; reconciliation keeps the single active-manager worker, recomputes the
same upstream, flags no change, and returns `c7plan` itself — whose LB
upstream misses the stray worker's `(address, port)`. -/
theorem lb_upstream_c7_cex :
    remake_plan c7env c7plan = some c7plan
    ∧ Vm.lb c7cexLb ∈ c7plan.vms
    ∧ (lbFor c7env.config.load_balancers c7cexLb.service).isSome = true
    ∧ (167772163, 9000) ∈ (workersIn c7plan.vms c7cexLb.service).map
        (fun w => (w.address, w.port))
    ∧ (167772163, 9000) ∉ c7cexLb.upstream := by
  decide

/-- C7 (amended): for every plan that `_remake_plan` freshly builds — i.e.
whose version was bumped, which is exactly the changed branch — every LB
entry's upstream equals, as a set, the `(address, port)` pairs of exactly
that service's worker entries in the same plan, and every configured
service with an LB config has an LB entry.  (For the unchanged branch,
which returns `self._plan` as-is, the property can fail:
`lb_upstream_c7_cex`.) -/
theorem lb_upstream_c7 (env : Env) (plan p : Plan)
    (hsn : ((env.config.services).map (fun s => s.name)).Nodup)
    (hself : env.self_plan = plan)
    (h : remake_plan env plan = some p)
    (hver : p.version = plan.version + 1) :
    (∀ l, Vm.lb l ∈ p.vms →
      ∀ x, x ∈ l.upstream ↔
        x ∈ (workersIn p.vms l.service).map (fun w => (w.address, w.port)))
    ∧ ∀ s ∈ env.config.services,
        (lbFor env.config.load_balancers s.name).isSome = true →
        ∃ l, Vm.lb l ∈ p.vms ∧ l.service = s.name := by
  simp only [remake_plan] at h
  cases hc : remake_plan_core env plan with
  | none => simp only [hc] at h; exact Option.noConfusion h
  | some x =>
    obtain ⟨vms, sts, changed⟩ := x
    simp only [hc] at h
    obtain rfl := Option.some.inj h
    cases changed with
    | false =>
      exfalso
      simp only [Bool.false_eq_true, if_false, hself] at hver
      omega
    | true =>
      simp only [if_true] at hver ⊢
      simp only [remake_plan_core] at hc
      cases hm : remake_manager_states env plan with
      | none => simp only [hm] at hc; exact Option.noConfusion hc
      | some y =>
        obtain ⟨sts2, cM⟩ := y
        simp only [hm] at hc
        cases hs : remake_services env plan
            ((env.config.managers.zip sts2).filterMap
              (fun p => if p.2.is_active then some p.1 else none))
            env.config.services [] cM 0 with
        | none => simp only [hs] at hc; exact Option.noConfusion hc
        | some z =>
          obtain ⟨zv, zc⟩ := z
          simp only [hs, Option.some.injEq, Prod.mk.injEq] at hc
          obtain ⟨rfl, rfl, rfl⟩ := hc
          obtain ⟨-, hINV, hEX⟩ := remake_services_lb_inv env plan _
            env.config.services [] cM 0 _ hs hsn (by simp) (by simp)
          constructor
          · intro l hl x
            rw [hINV l hl]
          · exact hEX

/-- Witness for the amended C7: in the `c6env` scenario the freshly built
plan `c7out` has version `0 + 1`, and its LB's upstream membership agrees
with the worker pairs of service `S`. -/
theorem lb_upstream_c7_witness :
    ((167772162, 80) ∈ c7outLb.upstream ↔
      (167772162, 80) ∈ (workersIn c7out.vms c7outLb.service).map
        (fun w => (w.address, w.port))) :=
  (lb_upstream_c7 c6env {} c7out (by decide) rfl (by decide) (by decide)).1
    c7outLb (by decide) (167772162, 80)

end Wso
